import Mathlib

set_option maxHeartbeats 1000000

/-!
Verification of the maze generator and solver in `src/maze.cpp`.

The embedding mirrors the C++ source:
* `Adjacency`, `Connections`, `Pos`, `MPath`, `Mask` follow the type aliases
  at the top of the file (`Pos` is `(y, x)` as in the source).
* The union-find (`EqClass`) is embedded as a parent map `Nat → Nat` over
  cell indices `y * Width + x`; `findC` is `find_rep` (with path
  compression, fuel-bounded), `ufMerge` is `merge`, `ufEq` is `operator==`.
* `genLoop` is the wall-removal loop of `Generate`; the C++ `rand()`
  stream is an explicit stream `s : Nat → Nat`, iteration `n` consuming
  `s (3n)`, `s (3n+1)`, `s (3n+2)` exactly as the three `rand()` calls of
  one loop iteration.  Since the C++ loop is `for(;;)`, the embedding is
  fuel-bounded and returns the current state (`Sum.inl`) on fuel
  exhaustion, or the finished grid (`Sum.inr`) when the loop breaks.
* `solveLoop`/`exploreStep` embed `Solve`: the fringe is a stack of paths
  (list head = top of stack = `back()` of the C++ vector), every adjacency
  read goes through the checked lookup `adjGet?` and an out-of-range read
  aborts with `SolveOutcome.oob`, so that in-bounds safety is a provable
  statement rather than an assumption.
-/

/-- The C++ `struct Adjacency`: per-cell east/south open-wall flags. -/
structure Adjacency where
  to_east : Bool
  to_south : Bool
deriving DecidableEq, Repr

instance : Inhabited Adjacency := ⟨⟨false, false⟩⟩

/-- Source alias `using Pos = std::pair<int,int>; // y,x`. -/
abbrev Pos := Int × Int

/-- Source alias `using Path = std::vector<Pos>`. -/
abbrev MPath := List Pos

/-- Source alias `using Connections = std::vector<std::vector<Adjacency>>`. -/
abbrev Connections := List (List Adjacency)

/-- Source alias `using Mask = std::set<Pos>`, embedded as a list with membership. -/
abbrev Mask := List Pos

/-- Total read `adj[y][x]` for indices known in range (out-of-range reads
default, used only where the source guarantees range). -/
def at2 (adj : Connections) (y x : Nat) : Adjacency :=
  (adj.getD y []).getD x ⟨false, false⟩

/-- Read `adj[y][x]` at `int` coordinates, defaulting out of range. -/
def atI (adj : Connections) (y x : Int) : Adjacency :=
  if 0 ≤ y ∧ 0 ≤ x then at2 adj y.toNat x.toNat else ⟨false, false⟩

/-- Checked read `adj[y][x]`: `none` exactly when the access would be out
of bounds in the C++ source. -/
def adjGet? (adj : Connections) (y x : Int) : Option Adjacency :=
  if 0 ≤ y ∧ 0 ≤ x then
    let row := adj.getD y.toNat []
    if x.toNat < row.length ∧ y.toNat < adj.length then
      some (row.getD x.toNat ⟨false, false⟩)
    else none
  else none

/-- The assignment `adj_out[y][x].to_east = true` of the source. -/
def setEast (adj : Connections) (y x : Nat) : Connections :=
  adj.set y ((adj.getD y []).set x ⟨true, (at2 adj y x).to_south⟩)

/-- The assignment `adj_out[y][x].to_south = true` of the source. -/
def setSouth (adj : Connections) (y x : Nat) : Connections :=
  adj.set y ((adj.getD y []).set x ⟨(at2 adj y x).to_east, true⟩)

/-- The grid really is `Height` rows of `Width` cells (established by the
initialization loop of `Generate`). -/
def WfGrid (adj : Connections) (W H : Nat) : Prop :=
  adj.length = H ∧ ∀ r ∈ adj, r.length = W

/-! ## Union-find (`class EqClass`)

`pos2ec` maps the cell `(y, x)` to index `y * Width + x`; the `rep`
pointers become a parent map `Nat → Nat`.  `find_rep` recurses on the
parent pointer and path-compresses (`rep = rep->find_rep()`); the
recursion is fuel-bounded (the C++ version terminates because the pointer
structure is acyclic, which is an invariant proved below). -/

/-- Pointwise update of a parent map (one pointer assignment). -/
def upd (uf : Nat → Nat) (k v : Nat) : Nat → Nat :=
  fun j => if j = k then v else uf j

/-- The member `find_rep` with path compression, returning the representative and the
compressed parent map. -/
def findC : Nat → (Nat → Nat) → Nat → Nat × (Nat → Nat)
  | 0, uf, i => (i, uf)
  | fuel+1, uf, i =>
    if uf i = i then (i, uf)
    else
      let p := findC fuel uf (uf i)
      (p.1, upd p.2 i p.1)

/-- The member `operator==`: compare representatives (compressing along the way). -/
def ufEq (F : Nat) (uf : Nat → Nat) (a b : Nat) : Bool × (Nat → Nat) :=
  let p := findC F uf a
  let q := findC F p.2 b
  (p.1 == q.1, q.2)

/-- The member `merge`: link the second representative under the first
(`r2->rep = r1`) unless they already coincide. -/
def ufMerge (F : Nat) (uf : Nat → Nat) (a b : Nat) : Nat → Nat :=
  let p := findC F uf a
  let q := findC F p.2 b
  if p.1 = q.1 then q.2 else upd q.2 q.1 p.1

/-! ## `Generate` -/

/-- Cell index used for `pos2ec`. -/
def cid (W y x : Nat) : Nat := y * W + x

/-- Loop state of `Generate`: the grid being built, the union-find parent
map, and the two diagnostic counters. -/
structure GenSt where
  adj : Connections
  uf : Nat → Nat
  total : Nat
  productive : Nat

/-- All walls up (`adj_out.resize` loops), one singleton class per cell. -/
def initAdj (W H : Nat) : Connections :=
  List.replicate H (List.replicate W ⟨false, false⟩)

def genState0 (W H : Nat) : GenSt :=
  ⟨initAdj W H, fun i => i, 0, 0⟩

/-- One iteration of the `for(;;)` wall-removal loop of `Generate`:
`Sum.inr adj` when the loop breaks (start and finish now connected),
`Sum.inl st2` to keep looping with the updated state.  `n` is the
iteration index; the three `rand()` calls of the iteration read
`s (3n)`, `s (3n+1)`, `s (3n+2)`. -/
def genStep (s : Nat → Nat) (W H sx sy fx fy : Nat) (mask : Mask)
    (n : Nat) (st : GenSt) : GenSt ⊕ Connections :=
  let F := W * H + 1
  if s (3*n) % 2 = 0 then
      -- East wall candidate
      let x := s (3*n+1) % (W-1)
      let y := s (3*n+2) % H
      if ((y : Int), (x : Int)) ∈ mask then
        Sum.inl { st with total := st.total + 1 }
      else if (at2 st.adj y x).to_east then
        Sum.inl { st with total := st.total + 1 }
      else
        let e := ufEq F st.uf (cid W y x) (cid W y (x+1))
        if e.1 then
          Sum.inl { st with uf := e.2, total := st.total + 1 }
        else
          let adj2 := setEast st.adj y x
          let uf2 := ufMerge F e.2 (cid W y x) (cid W y (x+1))
          let e2 := ufEq F uf2 (cid W sy sx) (cid W fy fx)
          if e2.1 then Sum.inr adj2
          else
            Sum.inl ⟨adj2, e2.2, st.total + 1, st.productive + 1⟩
    else
      -- South wall candidate
      let x := s (3*n+1) % W
      let y := s (3*n+2) % (H-1)
      if ((y : Int), (x : Int)) ∈ mask then
        Sum.inl { st with total := st.total + 1 }
      else if (at2 st.adj y x).to_south then
        Sum.inl { st with total := st.total + 1 }
      else
        let e := ufEq F st.uf (cid W y x) (cid W (y+1) x)
        if e.1 then
          Sum.inl { st with uf := e.2, total := st.total + 1 }
        else
          let adj2 := setSouth st.adj y x
          let uf2 := ufMerge F e.2 (cid W y x) (cid W (y+1) x)
          let e2 := ufEq F uf2 (cid W sy sx) (cid W fy fx)
          if e2.1 then Sum.inr adj2
          else
            Sum.inl ⟨adj2, e2.2, st.total + 1, st.productive + 1⟩

/-- The `for(;;)` loop itself, fuel-bounded: iterate `genStep` until it
breaks; fuel exhaustion returns the state reached so far. -/
def genLoop (s : Nat → Nat) (W H sx sy fx fy : Nat) (mask : Mask) :
    Nat → Nat → GenSt → GenSt ⊕ Connections
  | 0, _, st => Sum.inl st
  | fuel+1, n, st =>
    match genStep s W H sx sy fx fy mask n st with
    | Sum.inl st2 => genLoop s W H sx sy fx fy mask fuel (n+1) st2
    | Sum.inr adj => Sum.inr adj

/-- The function `Generate`, fuel-bounded: `some` when the loop broke (start and finish
connected), `none` when the fuel ran out first. -/
def GenerateF (fuel : Nat) (s : Nat → Nat) (W H sx sy fx fy : Nat) (mask : Mask) :
    Option Connections :=
  match genLoop s W H sx sy fx fy mask fuel 0 (genState0 W H) with
  | Sum.inl _ => none
  | Sum.inr adj => some adj

/-! ## `Solve` -/

/-- Result of the embedded `Solve`: `ok found path_out`, an out-of-bounds
adjacency access (`oob`, never happens — proved below), or fuel
exhaustion (`fuelOut`, never happens for the fuel used by `SolveR`). -/
inductive SolveOutcome where
  | ok : Bool → MPath → SolveOutcome
  | oob : SolveOutcome
  | fuelOut : SolveOutcome
deriving DecidableEq, Repr

/-- The `step` lambda: push `sp ++ [p2]` unless `p2` already occurs in
`sp` (the C++ searches `rbegin..rend`, same membership test). -/
def fringePush (sp : MPath) (p2 : Pos) (fr : List MPath) : List MPath :=
  if p2 ∈ sp then fr else (sp ++ [p2]) :: fr

/-- One guarded neighbor candidate of `Solve`: when the bounds guard
`cond` holds, read `adj[ry][rx]` (out of bounds aborts with `none`, the
C++ access would be out of range) and push the candidate `c` if the
tested flag is open; when the guard fails, leave the fringe unchanged. -/
def dirTry (adj : Connections) (cond : Prop) [Decidable cond] (ry rx : Int)
    (flag : Adjacency → Bool) (sp : MPath) (c : Pos) (fr : List MPath) :
    Option (List MPath) :=
  if cond then
    match adjGet? adj ry rx with
    | none => none
    | some a => some (if flag a then fringePush sp c fr else fr)
  else some fr

/-- One popped path's neighbor exploration: the four guarded candidate
pushes of `Solve`, North, East, South, West in source order (the
resulting list head is the last push, matching the vector's `back`).
`none` signals an out-of-bounds adjacency read. -/
def exploreStep (adj : Connections) (W H : Nat) (sp : MPath) (p1 : Pos)
    (fr : List MPath) : Option (List MPath) :=
  (dirTry adj (0 ≤ p1.1 - 1) (p1.1 - 1) p1.2 (fun a => a.to_south)
      sp (p1.1 - 1, p1.2) fr).bind fun fr1 =>
  (dirTry adj (p1.2 + 1 < (W : Int)) p1.1 p1.2 (fun a => a.to_east)
      sp (p1.1, p1.2 + 1) fr1).bind fun fr2 =>
  (dirTry adj (p1.1 + 1 < (H : Int)) p1.1 p1.2 (fun a => a.to_south)
      sp (p1.1 + 1, p1.2) fr2).bind fun fr3 =>
  dirTry adj (0 ≤ p1.2 - 1) p1.1 (p1.2 - 1) (fun a => a.to_east)
      sp (p1.1, p1.2 - 1) fr3

/-- The `while(!fringe.empty())` loop of `Solve`.  `po` is the incoming
contents of `path_out`; the loop only replaces it on the success return. -/
def solveLoop (adj : Connections) (W H : Nat) (fx fy : Int) (po : MPath) :
    Nat → List MPath → SolveOutcome
  | 0, _ => SolveOutcome.fuelOut
  | fuel+1, fringe =>
    match fringe with
    | [] => SolveOutcome.ok false po
    | sp :: rest =>
      match sp.getLast? with
      | none => SolveOutcome.oob
      | some p1 =>
        if p1.1 = fy ∧ p1.2 = fx then SolveOutcome.ok true sp
        else
          match exploreStep adj W H sp p1 rest with
          | none => SolveOutcome.oob
          | some fr2 => solveLoop adj W H fx fy po fuel fr2

/-- The function `Solve`, run with enough fuel for the DFS over simple paths to be
exhaustive (proved below). -/
def SolveR (adj : Connections) (W H : Nat) (sx sy fx fy : Int) (po : MPath) :
    SolveOutcome :=
  solveLoop adj W H fx fy po (5 ^ (W * H) + 1) [[(sy, sx)]]

/-! ## The open-wall graph -/

/-- Cell in range of a `W × H` grid. -/
def inB (W H : Nat) (p : Pos) : Prop :=
  0 ≤ p.1 ∧ p.1 < (H : Int) ∧ 0 ≤ p.2 ∧ p.2 < (W : Int)

/-- Open east wall from `u` to its east neighbor `v` (both in range). -/
def eastEdge (adj : Connections) (W H : Nat) (u v : Pos) : Prop :=
  v = (u.1, u.2 + 1) ∧ 0 ≤ u.1 ∧ u.1 < (H : Int) ∧ 0 ≤ u.2 ∧ u.2 + 1 < (W : Int) ∧
    (atI adj u.1 u.2).to_east = true

/-- Open south wall from `u` to its south neighbor `v` (both in range). -/
def southEdge (adj : Connections) (W H : Nat) (u v : Pos) : Prop :=
  v = (u.1 + 1, u.2) ∧ 0 ≤ u.1 ∧ u.1 + 1 < (H : Int) ∧ 0 ≤ u.2 ∧ u.2 < (W : Int) ∧
    (atI adj u.1 u.2).to_south = true

/-- One cardinal step through an open wall, in either direction. -/
def openAdj (adj : Connections) (W H : Nat) (u v : Pos) : Prop :=
  eastEdge adj W H u v ∨ eastEdge adj W H v u ∨
    southEdge adj W H u v ∨ southEdge adj W H v u

/-! ## Paths, walks, connectivity (over an arbitrary step relation) -/

/-- Simple path from `u` to `v`: consecutive cells related by `A`, no cell
repeated. -/
def PathB {α : Type} (A : α → α → Prop) (p : List α) (u v : α) : Prop :=
  p.Chain' A ∧ p.Nodup ∧ p.head? = some u ∧ p.getLast? = some v

/-- Walk from `u` to `v` (repetitions allowed). -/
def WalkB {α : Type} (A : α → α → Prop) (p : List α) (u v : α) : Prop :=
  p.Chain' A ∧ p.head? = some u ∧ p.getLast? = some v

/-- Cells `u` and `v` are connected by a simple path. -/
def conn {α : Type} (A : α → α → Prop) (u v : α) : Prop :=
  ∃ p, PathB A p u v

/-- Between any two cells there is at most one simple path (this is
acyclicity — a forest — phrased over simple paths). -/
def UP {α : Type} (A : α → α → Prop) : Prop :=
  ∀ u v p q, PathB A p u v → PathB A q u v → p = q

/-- Adding one undirected edge `{a, b}` to a step relation. -/
def addE {α : Type} (A : α → α → Prop) (a b : α) : α → α → Prop :=
  fun u v => A u v ∨ (u = a ∧ v = b) ∨ (u = b ∧ v = a)

/-! ## Union-find semantics -/

/-- Condition `rep == this`: the cell is its own representative. -/
def IsRoot (uf : Nat → Nat) (i : Nat) : Prop := uf i = i

/-- Well-formed parent map on cells `0..N-1`: closed under `uf` and every
parent chain reaches a representative (the C++ pointer structure is
acyclic). -/
def UFWf (uf : Nat → Nat) (N : Nat) : Prop :=
  (∀ i < N, uf i < N) ∧ ∀ i < N, ∃ k, IsRoot uf (uf^[k] i)

/-- Representative lookup without compression (specification version of
`find_rep`, fuel-bounded). -/
def rootD : Nat → (Nat → Nat) → Nat → Nat
  | 0, _, i => i
  | fuel+1, uf, i => if uf i = i then i else rootD fuel uf (uf i)

/-- The representative of `i` in a well-formed parent map over `N` cells
(fuel `N + 1` always suffices, proved below). -/
def rootOf (uf : Nat → Nat) (N i : Nat) : Nat := rootD (N+1) uf i

/-- Two cells are in the same component of the union-find. -/
def sameC (uf : Nat → Nat) (N a b : Nat) : Prop :=
  rootOf uf N a = rootOf uf N b

/-- Invariant of the generation loop, on the grid and union-find parts of
the state: the grid has its declared shape, the parent map is
well-formed, the open-wall graph has unique simple paths (it is a
forest), and the union-find components coincide with open-wall
connectivity. -/
def GenInv2 (W H : Nat) (adj : Connections) (uf : Nat → Nat) : Prop :=
  WfGrid adj W H ∧ UFWf uf (W * H) ∧ UP (openAdj adj W H) ∧
  ∀ y1 x1 y2 x2 : Nat, y1 < H → x1 < W → y2 < H → x2 < W →
    (sameC uf (W * H) (cid W y1 x1) (cid W y2 x2) ↔
      conn (openAdj adj W H) ((y1 : Int), (x1 : Int)) ((y2 : Int), (x2 : Int)))

def GenInv (W H : Nat) (st : GenSt) : Prop := GenInv2 W H st.adj st.uf

/-- Number of open-wall flags set in the grid (removing a wall sets
exactly one flag, so this counts removed walls). -/
def countOpen (adj : Connections) : Nat :=
  (adj.map (fun row => (row.map (fun a =>
    (if a.to_east then 1 else 0) + (if a.to_south then 1 else 0))).sum)).sum

/-- Cardinal grid adjacency inside a `W × H` grid: the candidate walls,
regardless of wall state. -/
def gridAdj (W H : Nat) (u v : Pos) : Prop :=
  inB W H u ∧ inB W H v ∧
    ((v.1 = u.1 ∧ (v.2 = u.2 + 1 ∨ u.2 = v.2 + 1)) ∨
     (v.2 = u.2 ∧ (v.1 = u.1 + 1 ∨ u.1 = v.1 + 1)))

/-- Grid steps through unmasked cells only ("a path through unmasked
cells"). -/
def unmaskedAdj (W H : Nat) (mask : Mask) (u v : Pos) : Prop :=
  gridAdj W H u v ∧ u ∉ mask ∧ v ∉ mask

/-- Invariant of the `Solve` fringe: each stacked path is nonempty,
starts at the start cell, is simple, follows open walls, and stays in
range. -/
def FringeInv (adj : Connections) (W H : Nat) (s0 : Pos)
    (fr : List MPath) : Prop :=
  ∀ q ∈ fr, q ≠ [] ∧ q.head? = some s0 ∧ q.Nodup ∧
    q.Chain' (openAdj adj W H) ∧ ∀ c ∈ q, inB W H c

/-- Termination measure of the `Solve` loop: simple paths cannot exceed
`W * H` cells, and each pop trades `5 ^ k` for at most `4 · 5 ^ (k-1)`. -/
def fringeMeasure (W H : Nat) (fr : List MPath) : Nat :=
  (fr.map (fun q => 5 ^ (W * H + 1 - q.length))).sum

/-- A path in the fringe that extends to a simple open-wall path ending
at the finish cell. -/
def Compl (A : Pos → Pos → Prop) (fin : Pos) (q : MPath) : Prop :=
  ∃ t, (q ++ t).Chain' A ∧ (q ++ t).Nodup ∧ (q ++ t).getLast? = some fin

/-! ## Concrete instances (used to settle the claims' concrete parts) -/

/-- A `rand()` stream: East(0,0), South(0,0), East(1,0); on a 2×2 grid
that removes walls 00—01, 00—10, 10—11 and then stops. -/
def strA : Nat → Nat := fun n => ([0,0,0, 1,0,0, 0,0,1] : List Nat).getD n 0

/-- A `rand()` stream: East(0,0), South(0,1); on a 2×2 grid that removes
walls 00—01, 01—11 and then stops — only 2 walls removed. -/
def strB : Nat → Nat := fun n => ([0,0,0, 1,1,0] : List Nat).getD n 0

/-- A `rand()` stream: South(0,1), East(1,0); used with the mask
`maskC`. -/
def strC : Nat → Nat := fun n => ([1,1,0, 0,0,1] : List Nat).getD n 0

/-- The grid `Generate` produces from `strA` on 2×2. -/
def adjA : Connections :=
  [[⟨true, true⟩, ⟨false, false⟩], [⟨true, false⟩, ⟨false, false⟩]]

/-- The grid `Generate` produces from `strB` on 2×2. -/
def adjB : Connections :=
  [[⟨true, false⟩, ⟨false, true⟩], [⟨false, false⟩, ⟨false, false⟩]]

/-- The grid `Generate` produces from `strC` and `maskC` on 2×2. -/
def adjC : Connections :=
  [[⟨false, false⟩, ⟨false, true⟩], [⟨true, false⟩, ⟨false, false⟩]]

/-- Mask of the cells `(0,0)` and `(1,1)` of a 2×2 grid: the unmasked
cells `(0,1)` and `(1,0)` are not adjacent, so the mask separates them. -/
def maskC : Mask := [((0 : Int), (0 : Int)), ((1 : Int), (1 : Int))]

/-! ## General lemmas about simple paths, walks and connectivity -/

section Graph

variable {α : Type} {A B : α → α → Prop}

theorem pathB_imp (h : ∀ x y, A x y → B x y) {p : List α} {u v : α}
    (hp : PathB A p u v) : PathB B p u v :=
  ⟨hp.1.imp h, hp.2.1, hp.2.2.1, hp.2.2.2⟩

theorem conn_mono (h : ∀ x y, A x y → B x y) {u v : α}
    (hc : conn A u v) : conn B u v := by
  obtain ⟨p, hp⟩ := hc
  exact ⟨p, pathB_imp h hp⟩

theorem conn_congr (h : ∀ x y, A x y ↔ B x y) {u v : α} :
    conn A u v ↔ conn B u v :=
  ⟨conn_mono (fun x y => (h x y).mp), conn_mono (fun x y => (h x y).mpr)⟩

theorem UP_congr (h : ∀ x y, A x y ↔ B x y) (hu : UP A) : UP B := by
  intro u v p q hp hq
  exact hu u v p q (pathB_imp (fun x y => (h x y).mpr) hp)
    (pathB_imp (fun x y => (h x y).mpr) hq)

theorem pathB_singleton (u : α) : PathB A [u] u u := by
  refine ⟨List.chain'_singleton u, List.nodup_singleton u, rfl, rfl⟩

theorem conn_refl (u : α) : conn A u u := ⟨[u], pathB_singleton u⟩

/-- Any walk contains a simple path with the same endpoints (cells drawn
from the walk). -/
theorem walk_simplify :
    ∀ (n : Nat) (p : List α), p.length ≤ n → p.Chain' A →
      ∀ u v, p.head? = some u → p.getLast? = some v →
      ∃ q, PathB A q u v ∧ ∀ c ∈ q, c ∈ p := by
  intro n
  induction n with
  | zero =>
    intro p hlen _ u v hh _
    cases p with
    | nil => simp at hh
    | cons x xs => simp at hlen
  | succ n ih =>
    intro p hlen hch u v hh hl
    cases p with
    | nil => simp at hh
    | cons x xs =>
      have hu : x = u := by simpa using hh
      subst hu
      by_cases hx : x ∈ xs
      · obtain ⟨s, t, hst⟩ := List.append_of_mem hx
        subst hst
        have hsplit : x :: (s ++ x :: t) = (x :: s) ++ x :: t := by simp
        rw [hsplit] at hch hl
        have hch2 : (x :: t).Chain' A := (List.chain'_split.mp hch).2
        have hl2 : (x :: t).getLast? = some v := by
          rwa [List.getLast?_append_of_ne_nil (x :: s) (by simp)] at hl
        have hlen2 : (x :: t).length ≤ n := by
          simp [List.length_append] at hlen ⊢; omega
        obtain ⟨q, hq, hsub⟩ := ih (x :: t) hlen2 hch2 x v rfl hl2
        refine ⟨q, hq, fun c hc => ?_⟩
        have hmem := hsub c hc
        simp only [List.mem_cons, List.mem_append] at hmem ⊢
        tauto
      · cases xs with
        | nil =>
          have hv : v = x := by simpa using hl.symm
          subst hv
          exact ⟨[v], pathB_singleton v, by simp⟩
        | cons y ys =>
          have hch2 := (List.chain'_cons'.mp hch).2
          have hstep := (List.chain'_cons'.mp hch).1
          have hl2 : (y :: ys).getLast? = some v := by
            rwa [List.getLast?_cons_cons] at hl
          have hlen2 : (y :: ys).length ≤ n := by simp at hlen ⊢; omega
          obtain ⟨q, hq, hsub⟩ := ih (y :: ys) hlen2 hch2 y v rfl hl2
          have hqne : q ≠ [] := by
            intro h
            rw [h] at hq
            simp [PathB] at hq
          have hxq : x ∉ q := fun hic => hx (hsub x hic)
          refine ⟨x :: q, ⟨?_, ?_, ?_, ?_⟩, ?_⟩
          · refine List.chain'_cons'.mpr ⟨?_, hq.1⟩
            intro z hz
            rw [hq.2.2.1] at hz
            simp at hz
            subst hz
            exact hstep y rfl
          · exact List.nodup_cons.mpr ⟨hxq, hq.2.1⟩
          · rfl
          · rw [show x :: q = [x] ++ q from rfl,
              List.getLast?_append_of_ne_nil [x] hqne]
            exact hq.2.2.2
          · intro c hc
            rcases List.mem_cons.mp hc with h | h
            · simp [h]
            · exact List.mem_cons_of_mem _ (hsub c h)

theorem conn_symm (hs : ∀ x y, A x y → A y x) {u v : α}
    (h : conn A u v) : conn A v u := by
  obtain ⟨p, hp⟩ := h
  refine ⟨p.reverse, ?_, ?_, ?_, ?_⟩
  · exact List.chain'_reverse.mpr (hp.1.imp (fun a b hab => hs a b hab))
  · exact List.nodup_reverse.mpr hp.2.1
  · rw [List.head?_reverse]; exact hp.2.2.2
  · rw [List.getLast?_reverse]; exact hp.2.2.1

theorem conn_trans {u v w : α} (h1 : conn A u v) (h2 : conn A v w) :
    conn A u w := by
  obtain ⟨p, hp⟩ := h1
  obtain ⟨q, hq⟩ := h2
  cases q with
  | nil => simp [PathB] at hq
  | cons z zs =>
    have hz : z = v := by simpa using hq.2.2.1
    subst hz
    cases zs with
    | nil =>
      have hw : w = z := by simpa using hq.2.2.2.symm
      subst hw
      exact ⟨p, hp⟩
    | cons z2 zs2 =>
      have hpne : p ≠ [] := by
        intro h; rw [h] at hp; simp [PathB] at hp
      have hch : (p ++ z2 :: zs2).Chain' A := by
        refine List.chain'_append.mpr ⟨hp.1, (List.chain'_cons'.mp hq.1).2, ?_⟩
        intro a ha b hb
        rw [hp.2.2.2] at ha
        simp at ha
        subst ha
        exact (List.chain'_cons'.mp hq.1).1 b hb
      have hh : (p ++ z2 :: zs2).head? = some u := by
        rw [List.head?_append_of_ne_nil p hpne]; exact hp.2.2.1
      have hl : (p ++ z2 :: zs2).getLast? = some w := by
        rw [List.getLast?_append_of_ne_nil p (by simp)]
        have hql := hq.2.2.2
        rwa [List.getLast?_cons_cons] at hql
      obtain ⟨r, hr, _⟩ :=
        walk_simplify (p ++ z2 :: zs2).length (p ++ z2 :: zs2) le_rfl hch u w hh hl
      exact ⟨r, hr⟩

theorem pathB_mem_split {p : List α} {u v c : α}
    (hp : PathB A p u v) (hc : c ∈ p) : conn A u c ∧ conn A c v := by
  obtain ⟨s, t, hst⟩ := List.append_of_mem hc
  subst hst
  constructor
  · refine ⟨s ++ [c], ?_, ?_, ?_, List.getLast?_concat s⟩
    · exact (List.chain'_split.mp hp.1).1
    · exact ((List.Sublist.append_left
        (List.cons_sublist_cons.mpr (List.nil_sublist t)) s).nodup hp.2.1)
    · cases s with
      | nil => simpa using hp.2.2.1
      | cons a s2 => simpa using hp.2.2.1
  · refine ⟨c :: t, (List.chain'_split.mp hp.1).2, ?_, rfl, ?_⟩
    · exact (List.sublist_append_right s (c :: t)).nodup hp.2.1
    · have hsp2 : (s ++ c :: t).getLast? = (c :: t).getLast? :=
        List.getLast?_append_of_ne_nil s (by simp)
      rw [← hsp2]
      exact hp.2.2.2

theorem pathB_no_edge (hA : ∀ x y, ¬ A x y) {p : List α} {u v : α}
    (hp : PathB A p u v) : p = [u] ∧ u = v := by
  cases p with
  | nil => simp [PathB] at hp
  | cons x xs =>
    have hx : x = u := by simpa using hp.2.2.1
    subst hx
    cases xs with
    | nil =>
      have hxv : x = v := by simpa using hp.2.2.2
      exact ⟨rfl, hxv⟩
    | cons y ys => exact absurd (List.chain'_cons.mp hp.1).1 (hA x y)

theorem conn_no_edge (hA : ∀ x y, ¬ A x y) {u v : α} :
    conn A u v ↔ u = v := by
  constructor
  · rintro ⟨p, hp⟩
    exact (pathB_no_edge hA hp).2
  · rintro rfl
    exact conn_refl u

theorem UP_no_edge (hA : ∀ x y, ¬ A x y) : UP A := by
  intro u v p q hp hq
  rw [(pathB_no_edge hA hp).1, (pathB_no_edge hA hq).1]

/-- The last step of a nontrivial walk enters the endpoint. -/
theorem walkB_last_step :
    ∀ (p : List α), p.Chain' A → ∀ {v : α}, p.getLast? = some v →
      2 ≤ p.length → ∃ w, A w v
  | [], _, v, hl, _ => by simp at hl
  | [x], _, v, _, hlen => by simp at hlen
  | x :: y :: t, hch, v, hl, _ => by
    rw [List.getLast?_cons_cons] at hl
    cases t with
    | nil =>
      have : y = v := by simpa using hl
      subst this
      exact ⟨x, (List.chain'_cons.mp hch).1⟩
    | cons z zs =>
      exact walkB_last_step (y :: z :: zs) (List.chain'_cons.mp hch).2 hl (by simp)

/-- A simple path from `u` to `v ≠ u` takes a last step into `v`. -/
theorem pathB_last_step {p : List α} {u v : α} (hp : PathB A p u v)
    (huv : u ≠ v) : ∃ w, A w v := by
  cases p with
  | nil => simp [PathB] at hp
  | cons x xs =>
    have hx : x = u := by simpa using hp.2.2.1
    subst hx
    cases xs with
    | nil =>
      have : x = v := by simpa using hp.2.2.2
      exact absurd this huv
    | cons y ys =>
      exact walkB_last_step (x :: y :: ys) hp.1 hp.2.2.2 (by simp)

theorem addE_comm {a b u v : α} : addE A a b u v ↔ addE A b a u v := by
  simp only [addE]
  tauto

/-- A chain over `A` plus the edge `{a, b}` either avoids the new edge or
splits at a use of it. -/
theorem chain_addE_split {a b : α} :
    ∀ (p : List α), p.Chain' (addE A a b) →
      p.Chain' A ∨ ∃ p1 p2, p = p1 ++ p2 ∧ p1 ≠ [] ∧ p2 ≠ [] ∧
        p1.Chain' (addE A a b) ∧ p2.Chain' (addE A a b) ∧
        ((p1.getLast? = some a ∧ p2.head? = some b) ∨
         (p1.getLast? = some b ∧ p2.head? = some a))
  | [], _ => Or.inl List.chain'_nil
  | [x], _ => Or.inl (List.chain'_singleton x)
  | x :: y :: t, hch => by
    have h1 := (List.chain'_cons.mp hch).1
    have h2 := (List.chain'_cons.mp hch).2
    rcases h1 with hA | ⟨hxa, hyb⟩ | ⟨hxb, hya⟩
    · rcases chain_addE_split (y :: t) h2 with hAll | ⟨p1, p2, hsp, h1ne, h2ne, hc1, hc2, hor⟩
      · exact Or.inl (List.chain'_cons.mpr ⟨hA, hAll⟩)
      · refine Or.inr ⟨x :: p1, p2, by rw [hsp]; rfl, by simp, h2ne, ?_, hc2, ?_⟩
        · refine List.chain'_cons'.mpr ⟨?_, hc1⟩
          intro z hz
          have hhp1 : p1.head? = some y := by
            have hsp2 : (p1 ++ p2).head? = p1.head? :=
              List.head?_append_of_ne_nil p1 h1ne
            rw [← hsp2, ← hsp]
            rfl
          rw [hhp1] at hz
          simp at hz
          subst hz
          exact Or.inl hA
        · have : (x :: p1).getLast? = p1.getLast? := by
            rw [show x :: p1 = [x] ++ p1 from rfl,
              List.getLast?_append_of_ne_nil [x] h1ne]
          rw [this]
          exact hor
    · exact Or.inr ⟨[x], y :: t, rfl, by simp, by simp,
        List.chain'_singleton x, h2, Or.inl ⟨by simp [hxa], by simp [hyb]⟩⟩
    · exact Or.inr ⟨[x], y :: t, rfl, by simp, by simp,
        List.chain'_singleton x, h2, Or.inr ⟨by simp [hxb], by simp [hya]⟩⟩

/-- A chain over `A` plus `{a, b}` that misses `a` or misses `b` is a
chain over `A` alone. -/
theorem chain_addE_drop {a b : α} :
    ∀ (p : List α), p.Chain' (addE A a b) → (a ∉ p ∨ b ∉ p) → p.Chain' A
  | [], _, _ => List.chain'_nil
  | [x], _, _ => List.chain'_singleton x
  | x :: y :: t, hch, hmem => by
    have h1 := (List.chain'_cons.mp hch).1
    have h2 := (List.chain'_cons.mp hch).2
    have htl : a ∉ y :: t ∨ b ∉ y :: t := by
      rcases hmem with h | h
      · exact Or.inl (fun hc => h (List.mem_cons_of_mem x hc))
      · exact Or.inr (fun hc => h (List.mem_cons_of_mem x hc))
    refine List.chain'_cons.mpr ⟨?_, chain_addE_drop (y :: t) h2 htl⟩
    rcases h1 with hA | ⟨hxa, hyb⟩ | ⟨hxb, hya⟩
    · exact hA
    · exfalso
      subst hxa
      subst hyb
      rcases hmem with h | h
      · exact h (by simp)
      · exact h (by simp)
    · exfalso
      subst hxb
      subst hya
      rcases hmem with h | h
      · exact h (by simp)
      · exact h (by simp)

/-- Decomposition of a simple path in the graph extended with the bridge
`{a, b}`: either it is a path of the original graph, or it crosses the
bridge exactly once, in one of the two directions. -/
theorem bridge_decompose {a b u v : α} {p : List α}
    (hp : PathB (addE A a b) p u v) :
    PathB A p u v ∨
    (∃ p1 p2, p = p1 ++ p2 ∧ PathB A p1 u a ∧ PathB A p2 b v) ∨
    (∃ p1 p2, p = p1 ++ p2 ∧ PathB A p1 u b ∧ PathB A p2 a v) := by
  obtain ⟨hch, hnd, hh, hl⟩ := hp
  rcases chain_addE_split p hch with hAll | ⟨p1, p2, hsp, h1ne, h2ne, hc1, hc2, hor⟩
  · exact Or.inl ⟨hAll, hnd, hh, hl⟩
  · subst hsp
    have hnd1 : p1.Nodup := (List.nodup_append.mp hnd).1
    have hnd2 : p2.Nodup := (List.nodup_append.mp hnd).2.1
    have hdisj : p1.Disjoint p2 := (List.nodup_append.mp hnd).2.2
    have hh1 : p1.head? = some u := by
      rwa [List.head?_append_of_ne_nil p1 h1ne] at hh
    have hl2 : p2.getLast? = some v := by
      rwa [List.getLast?_append_of_ne_nil p1 h2ne] at hl
    rcases hor with ⟨hla, hhb⟩ | ⟨hlb, hha⟩
    · have hbp2 : b ∈ p2 := List.mem_of_mem_head? (by rw [hhb]; rfl)
      have hbp1 : b ∉ p1 := fun hc => (List.disjoint_left.mp hdisj) hc hbp2
      have hap1 : a ∈ p1 := List.mem_of_mem_getLast? (by rw [hla]; rfl)
      have hap2 : a ∉ p2 := (List.disjoint_left.mp hdisj) hap1
      exact Or.inr (Or.inl ⟨p1, p2, rfl,
        ⟨chain_addE_drop p1 hc1 (Or.inr hbp1), hnd1, hh1, hla⟩,
        ⟨chain_addE_drop p2 hc2 (Or.inl hap2), hnd2, hhb, hl2⟩⟩)
    · have hap2 : a ∈ p2 := List.mem_of_mem_head? (by rw [hha]; rfl)
      have hap1 : a ∉ p1 := fun hc => (List.disjoint_left.mp hdisj) hc hap2
      have hbp1 : b ∈ p1 := List.mem_of_mem_getLast? (by rw [hlb]; rfl)
      have hbp2 : b ∉ p2 := (List.disjoint_left.mp hdisj) hbp1
      exact Or.inr (Or.inr ⟨p1, p2, rfl,
        ⟨chain_addE_drop p1 hc1 (Or.inl hap1), hnd1, hh1, hlb⟩,
        ⟨chain_addE_drop p2 hc2 (Or.inr hbp2), hnd2, hha, hl2⟩⟩)

/-- With `a`, `b` disconnected, paths to `a` and from `b` concatenate
across the bridge. -/
theorem conn_bridge_mid {a b u v : α} (hs : ∀ x y, A x y → A y x)
    (hnc : ¬ conn A a b) (h1 : conn A u a) (h2 : conn A b v) :
    conn (addE A a b) u v := by
  obtain ⟨p, hp⟩ := h1
  obtain ⟨q, hq⟩ := h2
  have hpne : p ≠ [] := by intro h; rw [h] at hp; simp [PathB] at hp
  have hqne : q ≠ [] := by intro h; rw [h] at hq; simp [PathB] at hq
  have hdisj : p.Disjoint q := by
    intro c hcp hcq
    have h3 := (pathB_mem_split hp hcp).2
    have h4 := (pathB_mem_split hq hcq).1
    exact hnc (conn_trans (conn_symm hs h3) (conn_symm hs h4))
  refine ⟨p ++ q, ?_, ?_, ?_, ?_⟩
  · refine List.chain'_append.mpr
      ⟨hp.1.imp (fun x y h => Or.inl h), hq.1.imp (fun x y h => Or.inl h), ?_⟩
    intro c hc d hd
    rw [hp.2.2.2] at hc
    rw [hq.2.2.1] at hd
    simp at hc hd
    subst hc
    subst hd
    exact Or.inr (Or.inl ⟨rfl, rfl⟩)
  · exact List.nodup_append.mpr ⟨hp.2.1, hq.2.1, hdisj⟩
  · rw [List.head?_append_of_ne_nil p hpne]; exact hp.2.2.1
  · rw [List.getLast?_append_of_ne_nil p hqne]; exact hq.2.2.2

/-- Connectivity after adding a bridge between two previously
disconnected cells. -/
theorem bridge_conn_iff {a b : α} (hs : ∀ x y, A x y → A y x)
    (hnc : ¬ conn A a b) (u v : α) :
    conn (addE A a b) u v ↔
      conn A u v ∨ (conn A u a ∧ conn A b v) ∨ (conn A u b ∧ conn A a v) := by
  constructor
  · rintro ⟨p, hp⟩
    rcases bridge_decompose hp with h | ⟨p1, p2, _, h1, h2⟩ | ⟨p1, p2, _, h1, h2⟩
    · exact Or.inl ⟨p, h⟩
    · exact Or.inr (Or.inl ⟨⟨p1, h1⟩, ⟨p2, h2⟩⟩)
    · exact Or.inr (Or.inr ⟨⟨p1, h1⟩, ⟨p2, h2⟩⟩)
  · rintro (h | ⟨h1, h2⟩ | ⟨h1, h2⟩)
    · exact conn_mono (fun x y => Or.inl) h
    · exact conn_bridge_mid hs hnc h1 h2
    · have hnc2 : ¬ conn A b a := fun hc => hnc (conn_symm hs hc)
      have := conn_bridge_mid hs hnc2 h1 h2
      exact conn_mono (fun x y h => addE_comm.mp h) this

/-- Adding a bridge between two previously disconnected cells preserves
uniqueness of simple paths (the forest stays a forest). -/
theorem bridge_UP {a b : α} (hs : ∀ x y, A x y → A y x)
    (hUP : UP A) (hnc : ¬ conn A a b) : UP (addE A a b) := by
  intro u v p q hp hq
  rcases bridge_decompose hp with hP | ⟨p1, p2, hpe, hp1, hp2⟩ | ⟨p1, p2, hpe, hp1, hp2⟩ <;>
    rcases bridge_decompose hq with hQ | ⟨q1, q2, hqe, hq1, hq2⟩ | ⟨q1, q2, hqe, hq1, hq2⟩
  · exact hUP u v p q hP hQ
  · exfalso
    refine hnc (conn_trans (conn_symm hs ⟨q1, hq1⟩)
      (conn_trans ⟨p, hP⟩ (conn_symm hs ⟨q2, hq2⟩)))
  · exfalso
    refine hnc (conn_trans ⟨q2, hq2⟩
      (conn_trans (conn_symm hs ⟨p, hP⟩) ⟨q1, hq1⟩))
  · exfalso
    refine hnc (conn_trans (conn_symm hs ⟨p1, hp1⟩)
      (conn_trans ⟨q, hQ⟩ (conn_symm hs ⟨p2, hp2⟩)))
  · rw [hpe, hqe, hUP u a p1 q1 hp1 hq1, hUP b v p2 q2 hp2 hq2]
  · exfalso
    exact hnc (conn_trans (conn_symm hs ⟨p1, hp1⟩) ⟨q1, hq1⟩)
  · exfalso
    refine hnc (conn_trans ⟨p2, hp2⟩
      (conn_trans (conn_symm hs ⟨q, hQ⟩) ⟨p1, hp1⟩))
  · exfalso
    exact hnc (conn_trans (conn_symm hs ⟨q1, hq1⟩) ⟨p1, hp1⟩)
  · rw [hpe, hqe, hUP u b p1 q1 hp1 hq1, hUP a v p2 q2 hp2 hq2]

end Graph

/-! ## Union-find lemmas -/

theorem iter_lt {uf : Nat → Nat} {N : Nat} (hb : ∀ i < N, uf i < N)
    {i : Nat} (hi : i < N) : ∀ k, uf^[k] i < N := by
  intro k
  induction k with
  | zero => simpa using hi
  | succ k ih => rw [Function.iterate_succ_apply']; exact hb _ ih

theorem rootD_eq {uf : Nat → Nat} :
    ∀ (fuel k i : Nat), k ≤ fuel → IsRoot uf (uf^[k] i) →
      rootD fuel uf i = uf^[k] i := by
  intro fuel
  induction fuel with
  | zero =>
    intro k i hk hr
    have hk0 : k = 0 := by omega
    subst hk0
    simp [rootD]
  | succ fuel ih =>
    intro k i hk hr
    by_cases hri : uf i = i
    · rw [Function.iterate_fixed hri]
      simp [rootD, hri]
    · cases k with
      | zero => exact absurd (by simpa using hr) hri
      | succ k =>
        rw [Function.iterate_succ_apply] at hr ⊢
        rw [show rootD (fuel+1) uf i = rootD fuel uf (uf i) from by
          simp [rootD, hri]]
        exact ih k (uf i) (by omega) hr

theorem reach_bound {uf : Nat → Nat} {N : Nat} (hb : ∀ i < N, uf i < N)
    {i : Nat} {x y : Nat} (hxy : x < y) (hyN : y ≤ N)
    (heq : uf^[x] i = uf^[y] i) {k : Nat} (hr : IsRoot uf (uf^[k] i)) :
    ∃ k2 ≤ N, IsRoot uf (uf^[k2] i) := by
  by_cases hkN : k ≤ N
  · exact ⟨k, hkN, hr⟩
  push_neg at hkN
  have hper : ∀ t, uf^[x + t] i = uf^[x + t % (y - x)] i := by
    intro t
    induction t using Nat.strong_induction_on with
    | _ t ih =>
      by_cases ht : t < y - x
      · rw [Nat.mod_eq_of_lt ht]
      · push_neg at ht
        have h1 : x + t = (t - (y - x)) + y := by omega
        rw [h1, Function.iterate_add_apply, ← heq, ← Function.iterate_add_apply]
        have h2 : t - (y - x) + x = x + (t - (y - x)) := by omega
        rw [h2, ih (t - (y - x)) (by omega)]
        have h3 : (t - (y - x)) % (y - x) = t % (y - x) :=
          (Nat.mod_eq_sub_mod ht).symm
        rw [h3]
  have hksplit : k = x + (k - x) := by omega
  have hk2 : uf^[k] i = uf^[x + (k - x) % (y - x)] i := by
    conv_lhs => rw [hksplit]
    exact hper (k - x)
  refine ⟨x + (k - x) % (y - x), ?_, ?_⟩
  · have := Nat.mod_lt (k - x) (show 0 < y - x by omega)
    omega
  · rw [← hk2]
    exact hr

theorem chain_bound {uf : Nat → Nat} {N : Nat} (hw : UFWf uf N)
    {i : Nat} (hi : i < N) : ∃ k ≤ N, IsRoot uf (uf^[k] i) := by
  obtain ⟨k, hr⟩ := hw.2 i hi
  by_cases hkN : k ≤ N
  · exact ⟨k, hkN, hr⟩
  have hmaps : ∀ j ∈ Finset.range (N+1), uf^[j] i ∈ Finset.range N := by
    intro j _
    exact Finset.mem_range.mpr (iter_lt hw.1 hi j)
  obtain ⟨x, hx, y, hy, hne, heq⟩ :=
    Finset.exists_ne_map_eq_of_card_lt_of_maps_to
      (by simp [Finset.card_range]) hmaps
  rcases Nat.lt_or_ge x y with h | h
  · exact reach_bound hw.1 h (Nat.lt_succ_iff.mp (Finset.mem_range.mp hy)) heq hr
  · have hyx : y < x := by omega
    exact reach_bound hw.1 hyx (Nat.lt_succ_iff.mp (Finset.mem_range.mp hx)) heq.symm hr

theorem rootOf_spec {uf : Nat → Nat} {N i : Nat} (hw : UFWf uf N) (hi : i < N) :
    IsRoot uf (rootOf uf N i) ∧ ∃ k, rootOf uf N i = uf^[k] i := by
  obtain ⟨k, hk, hr⟩ := chain_bound hw hi
  have h := rootD_eq (N+1) k i (by omega) hr
  refine ⟨?_, ⟨k, ?_⟩⟩
  · rw [rootOf, h]; exact hr
  · rw [rootOf, h]

theorem rootOf_isRoot {uf : Nat → Nat} {N i : Nat} (hw : UFWf uf N)
    (hi : i < N) : IsRoot uf (rootOf uf N i) := (rootOf_spec hw hi).1

theorem rootOf_lt {uf : Nat → Nat} {N i : Nat} (hw : UFWf uf N) (hi : i < N) :
    rootOf uf N i < N := by
  obtain ⟨k, hk⟩ := (rootOf_spec hw hi).2
  rw [hk]
  exact iter_lt hw.1 hi k

theorem rootOf_of_isRoot {uf : Nat → Nat} {N i : Nat} (hr : IsRoot uf i) :
    rootOf uf N i = i := by
  have h : rootD (N+1) uf i = uf^[0] i :=
    rootD_eq (N+1) 0 i (by omega) (by simpa using hr)
  simpa [rootOf] using h

theorem rootOf_step {uf : Nat → Nat} {N i : Nat} (hw : UFWf uf N)
    (hi : i < N) : rootOf uf N (uf i) = rootOf uf N i := by
  by_cases hri : uf i = i
  · rw [hri]
  · obtain ⟨k, hk, hr⟩ := chain_bound hw hi
    cases k with
    | zero => exact absurd (by simpa using hr) hri
    | succ k =>
      have h1 : rootOf uf N i = uf^[k+1] i := rootD_eq (N+1) (k+1) i (by omega) hr
      have hr2 : IsRoot uf (uf^[k] (uf i)) := by
        rwa [← Function.iterate_succ_apply]
      have h2 : rootOf uf N (uf i) = uf^[k] (uf i) :=
        rootD_eq (N+1) k (uf i) (by omega) hr2
      rw [h1, h2, Function.iterate_succ_apply]

theorem rootOf_iter {uf : Nat → Nat} {N i : Nat} (hw : UFWf uf N)
    (hi : i < N) : ∀ k, rootOf uf N (uf^[k] i) = rootOf uf N i := by
  intro k
  induction k with
  | zero => simp
  | succ k ih =>
    rw [Function.iterate_succ_apply', rootOf_step hw (iter_lt hw.1 hi k)]
    exact ih

theorem upd_wf_root {uf : Nat → Nat} {N a t : Nat} (hw : UFWf uf N)
    (ha : a < N) (ht : t < N) (htr : IsRoot uf t)
    (hcase : IsRoot uf a ∨ rootOf uf N a = t) :
    UFWf (upd uf a t) N ∧
    ∀ m, m < N → rootOf (upd uf a t) N m =
      (if rootOf uf N m = rootOf uf N a then t else rootOf uf N m) := by
  set uf2 := upd uf a t with huf2
  have hval : ∀ j, uf2 j = if j = a then t else uf j := fun j => rfl
  have hb2 : ∀ i < N, uf2 i < N := by
    intro i hi
    rw [hval]
    split
    · exact ht
    · exact hw.1 i hi
  have htr2 : IsRoot uf2 t := by
    rw [IsRoot, hval]
    split
    · rename_i h
      rw [h]
    · exact htr
  have hreach : ∀ k m, m < N → IsRoot uf (uf^[k] m) →
      ∃ k2, IsRoot uf2 (uf2^[k2] m) := by
    intro k
    induction k with
    | zero =>
      intro m hm hr
      by_cases hma : m = a
      · subst hma
        refine ⟨1, ?_⟩
        have h1 : uf2 m = t := by rw [hval]; simp
        simpa [h1] using htr2
      · refine ⟨0, ?_⟩
        have hr0 : IsRoot uf m := by simpa using hr
        have : uf2 m = m := by rw [hval]; simp [hma]; exact hr0
        simpa using this
    | succ k ih =>
      intro m hm hr
      by_cases hma : m = a
      · subst hma
        refine ⟨1, ?_⟩
        have h1 : uf2 m = t := by rw [hval]; simp
        simpa [h1] using htr2
      · by_cases hrm : IsRoot uf m
        · refine ⟨0, ?_⟩
          have : uf2 m = m := by rw [hval]; simp [hma]; exact hrm
          simpa using this
        · rw [Function.iterate_succ_apply] at hr
          obtain ⟨k2, hk2⟩ := ih (uf m) (hw.1 m hm) hr
          refine ⟨k2 + 1, ?_⟩
          have : uf2 m = uf m := by rw [hval]; simp [hma]
          rwa [Function.iterate_succ_apply, this]
  have hw2 : UFWf uf2 N := by
    refine ⟨hb2, fun i hi => ?_⟩
    obtain ⟨k, hk⟩ := hw.2 i hi
    exact hreach k i hi hk
  refine ⟨hw2, ?_⟩
  have hform : ∀ k m, m < N → IsRoot uf (uf^[k] m) →
      rootOf uf2 N m = (if rootOf uf N m = rootOf uf N a then t
        else rootOf uf N m) := by
    intro k
    induction k with
    | zero =>
      intro m hm hr
      have hrm : IsRoot uf m := by simpa using hr
      by_cases hma : m = a
      · subst hma
        rw [if_pos rfl]
        have h1 : uf2 m = t := by rw [hval]; simp
        calc rootOf uf2 N m = rootOf uf2 N (uf2 m) := (rootOf_step hw2 hm).symm
          _ = rootOf uf2 N t := by rw [h1]
          _ = t := rootOf_of_isRoot htr2
      · have h1 : uf2 m = m := by rw [hval]; simp [hma]; exact hrm
        have hL : rootOf uf2 N m = m := rootOf_of_isRoot h1
        have hRm : rootOf uf N m = m := rootOf_of_isRoot hrm
        rw [hL, hRm]
        split
        · rename_i hcond
          rcases hcase with hra | hrat
          · exact absurd (by rw [hcond, rootOf_of_isRoot hra]) hma
          · rw [← hrat, hcond]
        · rfl
    | succ k ih =>
      intro m hm hr
      by_cases hma : m = a
      · subst hma
        rw [if_pos rfl]
        have h1 : uf2 m = t := by rw [hval]; simp
        calc rootOf uf2 N m = rootOf uf2 N (uf2 m) := (rootOf_step hw2 hm).symm
          _ = rootOf uf2 N t := by rw [h1]
          _ = t := rootOf_of_isRoot htr2
      · by_cases hrm : IsRoot uf m
        · have h1 : uf2 m = m := by rw [hval]; simp [hma]; exact hrm
          have hL : rootOf uf2 N m = m := rootOf_of_isRoot h1
          have hRm : rootOf uf N m = m := rootOf_of_isRoot hrm
          rw [hL, hRm]
          split
          · rename_i hcond
            rcases hcase with hra | hrat
            · exact absurd (by rw [hcond, rootOf_of_isRoot hra]) hma
            · rw [← hrat, hcond]
          · rfl
        · rw [Function.iterate_succ_apply] at hr
          have h1 : uf2 m = uf m := by rw [hval]; simp [hma]
          have step2 : rootOf uf2 N m = rootOf uf2 N (uf m) := by
            rw [← h1, rootOf_step hw2 hm]
          rw [step2, ih (uf m) (hw.1 m hm) hr, rootOf_step hw hm]
  intro m hm
  obtain ⟨k, hk⟩ := hw.2 m hm
  exact hform k m hm hk

theorem findC_spec {N : Nat} :
    ∀ (fuel : Nat) (uf : Nat → Nat) (i : Nat), UFWf uf N → i < N →
      (∃ k, k < fuel ∧ IsRoot uf (uf^[k] i)) →
      (findC fuel uf i).1 = rootOf uf N i ∧
      UFWf (findC fuel uf i).2 N ∧
      (∀ m, m < N → rootOf (findC fuel uf i).2 N m = rootOf uf N m) ∧
      (∀ j, IsRoot uf j → IsRoot (findC fuel uf i).2 j) := by
  intro fuel
  induction fuel with
  | zero =>
    intro uf i _ _ h
    obtain ⟨k, hk, _⟩ := h
    omega
  | succ fuel ih =>
    intro uf i hw hi hex
    by_cases hri : uf i = i
    · have hfc : findC (fuel+1) uf i = (i, uf) := by simp [findC, hri]
      rw [hfc]
      exact ⟨(rootOf_of_isRoot hri).symm, hw, fun m _ => rfl, fun j hj => hj⟩
    · obtain ⟨k, hk, hr⟩ := hex
      cases k with
      | zero => exact absurd (by simpa using hr) hri
      | succ k =>
        rw [Function.iterate_succ_apply] at hr
        have hex2 : ∃ k2, k2 < fuel ∧ IsRoot uf (uf^[k2] (uf i)) :=
          ⟨k, by omega, hr⟩
        have hufi : uf i < N := hw.1 i hi
        obtain ⟨h1, hwf1, hpres, hkeep⟩ := ih uf (uf i) hw hufi hex2
        have hfc : findC (fuel+1) uf i =
            ((findC fuel uf (uf i)).1,
              upd (findC fuel uf (uf i)).2 i (findC fuel uf (uf i)).1) := by
          simp [findC, hri]
        set p := findC fuel uf (uf i) with hpdef
        have hroot_i : rootOf uf N (uf i) = rootOf uf N i := rootOf_step hw hi
        have hp1 : p.1 = rootOf uf N i := by rw [h1, hroot_i]
        have hp1lt : p.1 < N := by rw [hp1]; exact rootOf_lt hw hi
        have hp1root : IsRoot p.2 p.1 := by
          apply hkeep
          rw [h1]
          exact rootOf_isRoot hw hufi
        have hcase : IsRoot p.2 i ∨ rootOf p.2 N i = p.1 := by
          right
          rw [hpres i hi, hp1]
        obtain ⟨hw2, hform⟩ := upd_wf_root hwf1 hi hp1lt hp1root hcase
        rw [hfc]
        refine ⟨hp1, hw2, ?_, ?_⟩
        · intro m hm
          rw [hform m hm, hpres i hi, hpres m hm]
          split
          · rename_i hcond
            rw [hp1, ← hcond]
          · rfl
        · intro j hj
          have hj1 : IsRoot p.2 j := hkeep j hj
          have hji : j ≠ i := by
            intro h
            subst h
            exact hri hj
          show upd p.2 i p.1 j = j
          simp only [upd, if_neg hji]
          exact hj1

theorem findC_ok {N : Nat} {uf : Nat → Nat} {i : Nat} (hw : UFWf uf N)
    (hi : i < N) :
    (findC (N+1) uf i).1 = rootOf uf N i ∧ UFWf (findC (N+1) uf i).2 N ∧
    (∀ m, m < N → rootOf (findC (N+1) uf i).2 N m = rootOf uf N m) ∧
    (∀ j, IsRoot uf j → IsRoot (findC (N+1) uf i).2 j) := by
  obtain ⟨k, hk, hr⟩ := chain_bound hw hi
  exact findC_spec (N+1) uf i hw hi ⟨k, by omega, hr⟩

theorem ufEq_spec {N : Nat} {uf : Nat → Nat} {a b : Nat} (hw : UFWf uf N)
    (ha : a < N) (hb : b < N) :
    ((ufEq (N+1) uf a b).1 = true ↔ sameC uf N a b) ∧
    UFWf (ufEq (N+1) uf a b).2 N ∧
    (∀ m, m < N → rootOf (ufEq (N+1) uf a b).2 N m = rootOf uf N m) := by
  obtain ⟨h1, hw1, hp1, _⟩ := findC_ok hw ha
  obtain ⟨h2, hw2, hp2, _⟩ := findC_ok hw1 hb
  have hq1 : (findC (N+1) (findC (N+1) uf a).2 b).1 = rootOf uf N b := by
    rw [h2, hp1 b hb]
  have he : ufEq (N+1) uf a b =
      ((findC (N+1) uf a).1 == (findC (N+1) (findC (N+1) uf a).2 b).1,
        (findC (N+1) (findC (N+1) uf a).2 b).2) := rfl
  rw [he]
  refine ⟨?_, hw2, ?_⟩
  · simp only [beq_iff_eq, h1, hq1, sameC]
  · intro m hm
    rw [hp2 m hm, hp1 m hm]

theorem ufMerge_spec {N : Nat} {uf : Nat → Nat} {a b : Nat} (hw : UFWf uf N)
    (ha : a < N) (hb : b < N) :
    UFWf (ufMerge (N+1) uf a b) N ∧
    ∀ m, m < N → rootOf (ufMerge (N+1) uf a b) N m =
      (if rootOf uf N m = rootOf uf N b then rootOf uf N a
       else rootOf uf N m) := by
  obtain ⟨h1, hw1, hp1, hk1⟩ := findC_ok hw ha
  obtain ⟨h2, hw2, hp2, hk2⟩ := findC_ok hw1 hb
  set p := findC (N+1) uf a with hpd
  set q := findC (N+1) p.2 b with hqd
  have hq1 : q.1 = rootOf uf N b := by rw [h2, hp1 b hb]
  have hq1lt : q.1 < N := by rw [hq1]; exact rootOf_lt hw hb
  have hp1lt : p.1 < N := by rw [h1]; exact rootOf_lt hw ha
  have hq1root : IsRoot q.2 q.1 := by
    apply hk2
    rw [h2]
    exact rootOf_isRoot hw1 hb
  have hp1root : IsRoot q.2 p.1 := by
    apply hk2
    apply hk1
    rw [h1]
    exact rootOf_isRoot hw ha
  have hme : ufMerge (N+1) uf a b =
      (if p.1 = q.1 then q.2 else upd q.2 q.1 p.1) := rfl
  rw [hme]
  by_cases heq : p.1 = q.1
  · rw [if_pos heq]
    refine ⟨hw2, fun m hm2 => ?_⟩
    rw [hp2 m hm2, hp1 m hm2]
    split
    · rename_i hcond
      rw [hcond, ← hq1, ← heq, h1]
    · rfl
  · rw [if_neg heq]
    obtain ⟨hwf, hform⟩ :=
      upd_wf_root hw2 hq1lt hp1lt hp1root (Or.inl hq1root)
    refine ⟨hwf, fun m hm2 => ?_⟩
    have hqq : rootOf q.2 N q.1 = rootOf uf N b := by
      rw [rootOf_of_isRoot hq1root, hq1]
    rw [hform m hm2, hqq, hp2 m hm2, hp1 m hm2, h1]

theorem ite_root_cases (ri rj ra rb : Nat) :
    ((if ri = rb then ra else ri) = (if rj = rb then ra else rj)) ↔
      (ri = rj ∨ (ri = ra ∧ rb = rj) ∨ (ri = rb ∧ ra = rj)) := by
  split_ifs <;> omega

theorem sameC_merge {N : Nat} {uf : Nat → Nat} {a b i j : Nat}
    (hw : UFWf uf N) (ha : a < N) (hb : b < N) (hi : i < N) (hj : j < N) :
    sameC (ufMerge (N+1) uf a b) N i j ↔
      sameC uf N i j ∨ (sameC uf N i a ∧ sameC uf N b j) ∨
      (sameC uf N i b ∧ sameC uf N a j) := by
  obtain ⟨hwf, hform⟩ := ufMerge_spec hw ha hb
  rw [sameC, hform i hi, hform j hj]
  exact ite_root_cases _ _ _ _

/-! ## Grid lemmas -/

theorem wfGrid_initAdj (W H : Nat) : WfGrid (initAdj W H) W H := by
  refine ⟨by simp [initAdj], ?_⟩
  intro r hr
  rw [initAdj, List.mem_replicate] at hr
  rw [hr.2]
  simp

theorem at2_eq (adj : Connections) (y x : Nat) :
    at2 adj y x = (adj[y]?.getD [])[x]?.getD ⟨false, false⟩ := by
  rw [at2, List.getD_eq_getElem?_getD, List.getD_eq_getElem?_getD]

theorem at2_initAdj (W H y x : Nat) : at2 (initAdj W H) y x = ⟨false, false⟩ := by
  rw [at2_eq, initAdj, List.getElem?_replicate]
  by_cases hy : y < H
  · rw [if_pos hy]
    simp only [Option.getD_some]
    rw [List.getElem?_replicate]
    by_cases hx : x < W
    · rw [if_pos hx]; rfl
    · rw [if_neg hx]; rfl
  · rw [if_neg hy]
    rfl

theorem atI_initAdj (W H : Nat) (y x : Int) :
    atI (initAdj W H) y x = ⟨false, false⟩ := by
  rw [atI]
  split
  · exact at2_initAdj W H y.toNat x.toNat
  · rfl

theorem openAdj_initAdj (W H : Nat) : ∀ u v, ¬ openAdj (initAdj W H) W H u v := by
  intro u v h
  rcases h with h | h | h | h <;>
  · have hf := h.2.2.2.2.2
    rw [atI_initAdj] at hf
    simp at hf

theorem at2_set (adj : Connections) (y x : Nat) (a : Adjacency) (y' x' : Nat) :
    at2 (adj.set y ((adj.getD y []).set x a)) y' x' =
      (if y = y' ∧ x = x' ∧ y < adj.length ∧ x < (adj.getD y []).length then a
       else at2 adj y' x') := by
  rw [at2_eq, List.getElem?_set,
    show adj.getD y [] = adj[y]?.getD [] from List.getD_eq_getElem?_getD adj y []]
  by_cases hy : y = y'
  · subst hy
    by_cases hlen : y < adj.length
    · simp only [if_pos rfl, if_pos hlen, Option.getD_some, List.getElem?_set]
      by_cases hx : x = x'
      · subst hx
        rw [List.getElem?_eq_getElem hlen]
        by_cases hxlen : x < adj[y].length
        · simp [hlen, hxlen, List.getElem?_set]
        · have h0 : adj[y][x]? = none := List.getElem?_eq_none (le_of_not_lt hxlen)
          simp [hlen, hxlen, at2_eq, List.getElem?_set, h0,
            List.getElem?_eq_getElem hlen]
      · simp [hx, at2_eq]
    · simp only [if_pos rfl, if_neg hlen]
      have h0 : adj[y]? = none := List.getElem?_eq_none (le_of_not_lt hlen)
      simp [h0, at2_eq, hlen]
  · have hset : (adj.set y ((adj[y]?.getD []).set x a))[y']? = adj[y']? :=
      List.getElem?_set_ne hy
    simp [hy, at2_eq]

theorem rowLen {adj : Connections} {W H : Nat} (hw : WfGrid adj W H)
    {y : Nat} (hy : y < H) : (adj.getD y []).length = W := by
  rw [List.getD_eq_getElem?_getD,
    List.getElem?_eq_getElem (by rw [hw.1]; exact hy)]
  exact hw.2 _ (List.getElem_mem _)

theorem wfGrid_set {adj : Connections} {W H y x : Nat} {a : Adjacency}
    (hw : WfGrid adj W H) (hy : y < H) :
    WfGrid (adj.set y ((adj.getD y []).set x a)) W H := by
  refine ⟨by rw [List.length_set]; exact hw.1, ?_⟩
  intro r hr
  rcases List.mem_or_eq_of_mem_set hr with h | h
  · exact hw.2 r h
  · rw [h, List.length_set]
    exact rowLen hw hy

theorem at2_setEast {adj : Connections} {W H : Nat} (hw : WfGrid adj W H)
    {y x : Nat} (hy : y < H) (hx : x < W) (y' x' : Nat) :
    at2 (setEast adj y x) y' x' =
      (if y = y' ∧ x = x' then ⟨true, (at2 adj y x).to_south⟩
       else at2 adj y' x') := by
  rw [setEast, at2_set]
  have h1 : y < adj.length := by rw [hw.1]; exact hy
  have h2 : x < (adj.getD y []).length := by rw [rowLen hw hy]; exact hx
  have h3 : x < adj[y].length := by
    have h4 := h2
    rw [List.getD_eq_getElem?_getD, List.getElem?_eq_getElem h1] at h4
    simpa using h4
  simp [h1, h2, h3]

theorem at2_setSouth {adj : Connections} {W H : Nat} (hw : WfGrid adj W H)
    {y x : Nat} (hy : y < H) (hx : x < W) (y' x' : Nat) :
    at2 (setSouth adj y x) y' x' =
      (if y = y' ∧ x = x' then ⟨(at2 adj y x).to_east, true⟩
       else at2 adj y' x') := by
  rw [setSouth, at2_set]
  have h1 : y < adj.length := by rw [hw.1]; exact hy
  have h2 : x < (adj.getD y []).length := by rw [rowLen hw hy]; exact hx
  have h3 : x < adj[y].length := by
    have h4 := h2
    rw [List.getD_eq_getElem?_getD, List.getElem?_eq_getElem h1] at h4
    simpa using h4
  simp [h1, h2, h3]

theorem atI_to_at2 {y2 x2 : Int} (adj : Connections) (h1 : 0 ≤ y2)
    (h2 : 0 ≤ x2) : atI adj y2 x2 = at2 adj y2.toNat x2.toNat := by
  rw [atI, if_pos ⟨h1, h2⟩]

theorem atI_setEast {adj : Connections} {W H : Nat} (hw : WfGrid adj W H)
    {y x : Nat} (hy : y < H) (hx : x < W) (y2 x2 : Int) :
    atI (setEast adj y x) y2 x2 =
      (if y2 = (y : Int) ∧ x2 = (x : Int) then ⟨true, (at2 adj y x).to_south⟩
       else atI adj y2 x2) := by
  by_cases hnn : 0 ≤ y2 ∧ 0 ≤ x2
  · rw [atI, if_pos hnn, atI, if_pos hnn, at2_setEast hw hy hx]
    have hiff : (y = y2.toNat ∧ x = x2.toNat) ↔
        (y2 = (y : Int) ∧ x2 = (x : Int)) := by omega
    rw [if_congr hiff rfl rfl]
  · rw [atI, if_neg hnn, atI, if_neg hnn,
      if_neg (by intro h; exact hnn (by omega))]

theorem atI_setSouth {adj : Connections} {W H : Nat} (hw : WfGrid adj W H)
    {y x : Nat} (hy : y < H) (hx : x < W) (y2 x2 : Int) :
    atI (setSouth adj y x) y2 x2 =
      (if y2 = (y : Int) ∧ x2 = (x : Int) then ⟨(at2 adj y x).to_east, true⟩
       else atI adj y2 x2) := by
  by_cases hnn : 0 ≤ y2 ∧ 0 ≤ x2
  · rw [atI, if_pos hnn, atI, if_pos hnn, at2_setSouth hw hy hx]
    have hiff : (y = y2.toNat ∧ x = x2.toNat) ↔
        (y2 = (y : Int) ∧ x2 = (x : Int)) := by omega
    rw [if_congr hiff rfl rfl]
  · rw [atI, if_neg hnn, atI, if_neg hnn,
      if_neg (by intro h; exact hnn (by omega))]

theorem to_south_setEast {adj : Connections} {W H : Nat} (hw : WfGrid adj W H)
    {y x : Nat} (hy : y < H) (hx : x < W) (y2 x2 : Int) :
    (atI (setEast adj y x) y2 x2).to_south = (atI adj y2 x2).to_south := by
  rw [atI_setEast hw hy hx]
  split
  · rename_i hc
    rw [hc.1, hc.2, atI_to_at2 adj (by omega) (by omega)]
    simp
  · rfl

theorem to_east_setSouth {adj : Connections} {W H : Nat} (hw : WfGrid adj W H)
    {y x : Nat} (hy : y < H) (hx : x < W) (y2 x2 : Int) :
    (atI (setSouth adj y x) y2 x2).to_east = (atI adj y2 x2).to_east := by
  rw [atI_setSouth hw hy hx]
  split
  · rename_i hc
    rw [hc.1, hc.2, atI_to_at2 adj (by omega) (by omega)]
    simp
  · rfl

theorem eastEdge_setEast {adj : Connections} {W H : Nat} (hw : WfGrid adj W H)
    {y x : Nat} (hy : y < H) (hx1 : x + 1 < W) (u v : Pos) :
    eastEdge (setEast adj y x) W H u v ↔
      (eastEdge adj W H u v ∨
        (u = ((y : Int), (x : Int)) ∧ v = ((y : Int), (x : Int) + 1))) := by
  rw [eastEdge, eastEdge, atI_setEast hw hy (by omega)]
  by_cases hc : u.1 = (y : Int) ∧ u.2 = (x : Int)
  · rw [if_pos hc]
    constructor
    · rintro ⟨hv, _, _, _, _, _⟩
      refine Or.inr ⟨Prod.ext_iff.mpr ⟨hc.1, hc.2⟩, ?_⟩
      rw [hv, hc.1, hc.2]
    · rintro (⟨hv, h1, h2, h3, h4, _⟩ | ⟨hu, hv⟩)
      · exact ⟨hv, h1, h2, h3, h4, rfl⟩
      · subst hu
        subst hv
        refine ⟨rfl, ?_, ?_, ?_, ?_, rfl⟩ <;> simp <;> omega
  · rw [if_neg hc]
    constructor
    · intro h
      exact Or.inl h
    · rintro (h | ⟨hu, hv⟩)
      · exact h
      · exact absurd (by rw [hu]; exact ⟨rfl, rfl⟩) hc

theorem southEdge_setEast {adj : Connections} {W H : Nat} (hw : WfGrid adj W H)
    {y x : Nat} (hy : y < H) (hx : x < W) (u v : Pos) :
    southEdge (setEast adj y x) W H u v ↔ southEdge adj W H u v := by
  rw [southEdge, southEdge, to_south_setEast hw hy hx]

theorem eastEdge_setSouth {adj : Connections} {W H : Nat} (hw : WfGrid adj W H)
    {y x : Nat} (hy : y < H) (hx : x < W) (u v : Pos) :
    eastEdge (setSouth adj y x) W H u v ↔ eastEdge adj W H u v := by
  rw [eastEdge, eastEdge, to_east_setSouth hw hy hx]

theorem southEdge_setSouth {adj : Connections} {W H : Nat} (hw : WfGrid adj W H)
    {y x : Nat} (hy1 : y + 1 < H) (hx : x < W) (u v : Pos) :
    southEdge (setSouth adj y x) W H u v ↔
      (southEdge adj W H u v ∨
        (u = ((y : Int), (x : Int)) ∧ v = ((y : Int) + 1, (x : Int)))) := by
  rw [southEdge, southEdge, atI_setSouth hw (by omega) hx]
  by_cases hc : u.1 = (y : Int) ∧ u.2 = (x : Int)
  · rw [if_pos hc]
    constructor
    · rintro ⟨hv, _, _, _, _, _⟩
      refine Or.inr ⟨Prod.ext_iff.mpr ⟨hc.1, hc.2⟩, ?_⟩
      rw [hv, hc.1, hc.2]
    · rintro (⟨hv, h1, h2, h3, h4, _⟩ | ⟨hu, hv⟩)
      · exact ⟨hv, h1, h2, h3, h4, rfl⟩
      · subst hu
        subst hv
        refine ⟨rfl, ?_, ?_, ?_, ?_, rfl⟩ <;> simp <;> omega
  · rw [if_neg hc]
    constructor
    · intro h
      exact Or.inl h
    · rintro (h | ⟨hu, hv⟩)
      · exact h
      · exact absurd (by rw [hu]; exact ⟨rfl, rfl⟩) hc

theorem openAdj_setEast {adj : Connections} {W H : Nat} (hw : WfGrid adj W H)
    {y x : Nat} (hy : y < H) (hx1 : x + 1 < W) (u v : Pos) :
    openAdj (setEast adj y x) W H u v ↔
      addE (openAdj adj W H) ((y : Int), (x : Int))
        ((y : Int), (x : Int) + 1) u v := by
  rw [openAdj, addE, openAdj,
    eastEdge_setEast hw hy hx1 u v, eastEdge_setEast hw hy hx1 v u,
    southEdge_setEast hw hy (by omega) u v, southEdge_setEast hw hy (by omega) v u]
  constructor
  · rintro ((h | ⟨h1, h2⟩) | (h | ⟨h1, h2⟩) | h | h)
    · exact Or.inl (Or.inl h)
    · exact Or.inr (Or.inl ⟨h1, h2⟩)
    · exact Or.inl (Or.inr (Or.inl h))
    · exact Or.inr (Or.inr ⟨h2, h1⟩)
    · exact Or.inl (Or.inr (Or.inr (Or.inl h)))
    · exact Or.inl (Or.inr (Or.inr (Or.inr h)))
  · rintro ((h | h | h | h) | ⟨h1, h2⟩ | ⟨h1, h2⟩)
    · exact Or.inl (Or.inl h)
    · exact Or.inr (Or.inl (Or.inl h))
    · exact Or.inr (Or.inr (Or.inl h))
    · exact Or.inr (Or.inr (Or.inr h))
    · exact Or.inl (Or.inr ⟨h1, h2⟩)
    · exact Or.inr (Or.inl (Or.inr ⟨h2, h1⟩))

theorem openAdj_setSouth {adj : Connections} {W H : Nat} (hw : WfGrid adj W H)
    {y x : Nat} (hy1 : y + 1 < H) (hx : x < W) (u v : Pos) :
    openAdj (setSouth adj y x) W H u v ↔
      addE (openAdj adj W H) ((y : Int), (x : Int))
        ((y : Int) + 1, (x : Int)) u v := by
  rw [openAdj, addE, openAdj,
    eastEdge_setSouth hw (by omega) hx u v, eastEdge_setSouth hw (by omega) hx v u,
    southEdge_setSouth hw hy1 hx u v, southEdge_setSouth hw hy1 hx v u]
  constructor
  · rintro (h | h | (h | ⟨h1, h2⟩) | (h | ⟨h1, h2⟩))
    · exact Or.inl (Or.inl h)
    · exact Or.inl (Or.inr (Or.inl h))
    · exact Or.inl (Or.inr (Or.inr (Or.inl h)))
    · exact Or.inr (Or.inl ⟨h1, h2⟩)
    · exact Or.inl (Or.inr (Or.inr (Or.inr h)))
    · exact Or.inr (Or.inr ⟨h2, h1⟩)
  · rintro ((h | h | h | h) | ⟨h1, h2⟩ | ⟨h1, h2⟩)
    · exact Or.inl h
    · exact Or.inr (Or.inl h)
    · exact Or.inr (Or.inr (Or.inl (Or.inl h)))
    · exact Or.inr (Or.inr (Or.inr (Or.inl h)))
    · exact Or.inr (Or.inr (Or.inl (Or.inr ⟨h1, h2⟩)))
    · exact Or.inr (Or.inr (Or.inr (Or.inr ⟨h2, h1⟩)))

theorem openAdj_symm {adj : Connections} {W H : Nat} :
    ∀ u v, openAdj adj W H u v → openAdj adj W H v u := by
  intro u v h
  rcases h with h | h | h | h
  · exact Or.inr (Or.inl h)
  · exact Or.inl h
  · exact Or.inr (Or.inr (Or.inr h))
  · exact Or.inr (Or.inr (Or.inl h))

theorem openAdj_inB {adj : Connections} {W H : Nat} {u v : Pos}
    (h : openAdj adj W H u v) : inB W H u ∧ inB W H v := by
  rcases h with ⟨hv, h1, h2, h3, h4, _⟩ | ⟨hv, h1, h2, h3, h4, _⟩ |
    ⟨hv, h1, h2, h3, h4, _⟩ | ⟨hv, h1, h2, h3, h4, _⟩ <;>
    rw [Prod.ext_iff] at hv <;>
    constructor <;> refine ⟨?_, ?_, ?_, ?_⟩ <;> omega

theorem cid_lt {W H y x : Nat} (hy : y < H) (hx : x < W) :
    cid W y x < W * H := by
  have h1 : (y + 1) * W = y * W + W := Nat.succ_mul y W
  have h2 : (y + 1) * W ≤ H * W := Nat.mul_le_mul_right W hy
  have h3 : H * W = W * H := Nat.mul_comm H W
  rw [cid]
  omega

theorem cid_inj {W y x y2 x2 : Nat} (hx : x < W) (hx2 : x2 < W)
    (h : cid W y x = cid W y2 x2) : y = y2 ∧ x = x2 := by
  rw [cid, cid] at h
  have hW : 0 < W := by omega
  have e1 : (y * W + x) / W = y := by
    rw [Nat.mul_comm y W, Nat.mul_add_div hW, Nat.div_eq_of_lt hx, Nat.add_zero]
  have e2 : (y2 * W + x2) / W = y2 := by
    rw [Nat.mul_comm y2 W, Nat.mul_add_div hW, Nat.div_eq_of_lt hx2, Nat.add_zero]
  have hy : y = y2 := by rw [← e1, ← e2, h]
  subst hy
  exact ⟨rfl, by omega⟩

theorem sameC_of_pres {N : Nat} {uf1 uf2 : Nat → Nat}
    (hpres : ∀ m, m < N → rootOf uf2 N m = rootOf uf1 N m)
    {i j : Nat} (hi : i < N) (hj : j < N) :
    sameC uf2 N i j ↔ sameC uf1 N i j := by
  rw [sameC, sameC, hpres i hi, hpres j hj]

theorem genInv2_init (W H : Nat) : GenInv2 W H (initAdj W H) (fun i => i) := by
  refine ⟨wfGrid_initAdj W H, ⟨fun i hi => hi, fun i _ => ⟨0, rfl⟩⟩,
    UP_no_edge (openAdj_initAdj W H), ?_⟩
  intro y1 x1 y2 x2 hy1 hx1 hy2 hx2
  have hid : ∀ i : Nat, IsRoot (fun j => j) i := fun i => rfl
  rw [sameC, rootOf_of_isRoot (hid _), rootOf_of_isRoot (hid _),
    conn_no_edge (openAdj_initAdj W H)]
  constructor
  · intro h
    obtain ⟨hy, hx⟩ := cid_inj hx1 hx2 h
    rw [hy, hx]
  · intro h
    rw [Prod.ext_iff] at h
    have hy : y1 = y2 := by have := h.1; omega
    have hx : x1 = x2 := by have := h.2; omega
    rw [hy, hx]

theorem gen_update_inv {W H : Nat} {adj : Connections} {uf : Nat → Nat}
    (hinv : GenInv2 W H adj uf)
    {y1 x1 y2 x2 : Nat} (hy1 : y1 < H) (hx1 : x1 < W) (hy2 : y2 < H)
    (hx2 : x2 < W) {adj2 : Connections} (hwg2 : WfGrid adj2 W H)
    (hbridge : ∀ u v, openAdj adj2 W H u v ↔
      addE (openAdj adj W H) ((y1 : Int), (x1 : Int))
        ((y2 : Int), (x2 : Int)) u v)
    (hne : ¬ sameC uf (W * H) (cid W y1 x1) (cid W y2 x2)) :
    GenInv2 W H adj2 (ufMerge (W * H + 1) uf (cid W y1 x1) (cid W y2 x2)) := by
  obtain ⟨hwg, hwf, hup, hsc⟩ := hinv
  have ha : cid W y1 x1 < W * H := cid_lt hy1 hx1
  have hb : cid W y2 x2 < W * H := cid_lt hy2 hx2
  have hnc : ¬ conn (openAdj adj W H) ((y1 : Int), (x1 : Int))
      ((y2 : Int), (x2 : Int)) :=
    fun hc => hne ((hsc y1 x1 y2 x2 hy1 hx1 hy2 hx2).mpr hc)
  obtain ⟨hwfm, _⟩ := ufMerge_spec hwf ha hb
  refine ⟨hwg2, hwfm, ?_, ?_⟩
  · exact UP_congr (fun u v => (hbridge u v).symm)
      (bridge_UP openAdj_symm hup hnc)
  · intro y3 x3 y4 x4 hy3 hx3 hy4 hx4
    have hc3 : cid W y3 x3 < W * H := cid_lt hy3 hx3
    have hc4 : cid W y4 x4 < W * H := cid_lt hy4 hx4
    rw [sameC_merge hwf ha hb hc3 hc4, conn_congr hbridge,
      bridge_conn_iff openAdj_symm hnc,
      hsc y3 x3 y4 x4 hy3 hx3 hy4 hx4,
      hsc y3 x3 y1 x1 hy3 hx3 hy1 hx1,
      hsc y2 x2 y4 x4 hy2 hx2 hy4 hx4,
      hsc y3 x3 y2 x2 hy3 hx3 hy2 hx2,
      hsc y1 x1 y4 x4 hy1 hx1 hy4 hx4]

theorem genStep_cases (s : Nat → Nat) {W H sx sy fx fy : Nat} (mask : Mask)
    (hW : 2 ≤ W) (hH : 2 ≤ H) (hsx : sx < W) (hsy : sy < H)
    (hfx : fx < W) (hfy : fy < H) (n : Nat) (st : GenSt)
    (hinv : GenInv W H st) :
    (∃ st2, genStep s W H sx sy fx fy mask n st = Sum.inl st2 ∧
      GenInv W H st2) ∨
    (∃ adj, genStep s W H sx sy fx fy mask n st = Sum.inr adj ∧
      WfGrid adj W H ∧ UP (openAdj adj W H) ∧
      conn (openAdj adj W H) ((sy : Int), (sx : Int))
        ((fy : Int), (fx : Int))) := by
  obtain ⟨hwg, hwf, hup, hsc⟩ := hinv
  simp only [genStep]
  by_cases horient : s (3*n) % 2 = 0
  · rw [if_pos horient]
    set x := s (3*n+1) % (W-1) with hxd
    set y := s (3*n+2) % H with hyd
    have hx : x < W - 1 := Nat.mod_lt _ (by omega)
    have hy : y < H := Nat.mod_lt _ (by omega)
    have hxW : x < W := by omega
    have hx1W : x + 1 < W := by omega
    by_cases hmask : ((y : Int), (x : Int)) ∈ mask
    · rw [if_pos hmask]
      exact Or.inl ⟨_, rfl, ⟨hwg, hwf, hup, hsc⟩⟩
    · rw [if_neg hmask]
      by_cases hflag : (at2 st.adj y x).to_east = true
      · rw [if_pos hflag]
        exact Or.inl ⟨_, rfl, ⟨hwg, hwf, hup, hsc⟩⟩
      · rw [if_neg hflag]
        have ha : cid W y x < W * H := cid_lt hy hxW
        have hb : cid W y (x+1) < W * H := cid_lt hy hx1W
        obtain ⟨heq, hwfe, hprese⟩ := ufEq_spec hwf ha hb
        by_cases he :
            (ufEq (W*H+1) st.uf (cid W y x) (cid W y (x+1))).1 = true
        · rw [if_pos he]
          refine Or.inl ⟨_, rfl, ⟨hwg, hwfe, hup, ?_⟩⟩
          intro y3 x3 y4 x4 hy3 hx3 hy4 hx4
          rw [sameC_of_pres hprese (cid_lt hy3 hx3) (cid_lt hy4 hx4)]
          exact hsc y3 x3 y4 x4 hy3 hx3 hy4 hx4
        · rw [if_neg he]
          have hinv_e : GenInv2 W H st.adj
              (ufEq (W*H+1) st.uf (cid W y x) (cid W y (x+1))).2 := by
            refine ⟨hwg, hwfe, hup, ?_⟩
            intro y3 x3 y4 x4 hy3 hx3 hy4 hx4
            rw [sameC_of_pres hprese (cid_lt hy3 hx3) (cid_lt hy4 hx4)]
            exact hsc y3 x3 y4 x4 hy3 hx3 hy4 hx4
          have hnee : ¬ sameC
              (ufEq (W*H+1) st.uf (cid W y x) (cid W y (x+1))).2 (W*H)
              (cid W y x) (cid W y (x+1)) := by
            rw [sameC_of_pres hprese ha hb]
            intro hcon
            exact he (heq.mpr hcon)
          have hwg2 : WfGrid (setEast st.adj y x) W H := wfGrid_set hwg hy
          have hcast : ((x + 1 : Nat) : Int) = (x : Int) + 1 := by push_cast; ring
          have hbr : ∀ u v, openAdj (setEast st.adj y x) W H u v ↔
              addE (openAdj st.adj W H) ((y : Int), (x : Int))
                ((y : Int), ((x + 1 : Nat) : Int)) u v := by
            intro u v
            rw [hcast]
            exact openAdj_setEast hwg hy hx1W u v
          have hGI := gen_update_inv hinv_e hy hxW hy hx1W hwg2 hbr hnee
          obtain ⟨heq2, hwf2, hpres2⟩ :=
            ufEq_spec hGI.2.1 (cid_lt hsy hsx) (cid_lt hfy hfx)
          by_cases he2 : (ufEq (W*H+1)
              (ufMerge (W*H+1)
                (ufEq (W*H+1) st.uf (cid W y x) (cid W y (x+1))).2
                (cid W y x) (cid W y (x+1)))
              (cid W sy sx) (cid W fy fx)).1 = true
          · rw [if_pos he2]
            refine Or.inr ⟨_, rfl, hGI.1, hGI.2.2.1, ?_⟩
            exact (hGI.2.2.2 sy sx fy fx hsy hsx hfy hfx).mp (heq2.mp he2)
          · rw [if_neg he2]
            refine Or.inl ⟨_, rfl, ⟨hGI.1, hwf2, hGI.2.2.1, ?_⟩⟩
            intro y3 x3 y4 x4 hy3 hx3 hy4 hx4
            rw [sameC_of_pres hpres2 (cid_lt hy3 hx3) (cid_lt hy4 hx4)]
            exact hGI.2.2.2 y3 x3 y4 x4 hy3 hx3 hy4 hx4
  · rw [if_neg horient]
    set x := s (3*n+1) % W with hxd
    set y := s (3*n+2) % (H-1) with hyd
    have hx : x < W := Nat.mod_lt _ (by omega)
    have hy : y < H - 1 := Nat.mod_lt _ (by omega)
    have hyH : y < H := by omega
    have hy1H : y + 1 < H := by omega
    by_cases hmask : ((y : Int), (x : Int)) ∈ mask
    · rw [if_pos hmask]
      exact Or.inl ⟨_, rfl, ⟨hwg, hwf, hup, hsc⟩⟩
    · rw [if_neg hmask]
      by_cases hflag : (at2 st.adj y x).to_south = true
      · rw [if_pos hflag]
        exact Or.inl ⟨_, rfl, ⟨hwg, hwf, hup, hsc⟩⟩
      · rw [if_neg hflag]
        have ha : cid W y x < W * H := cid_lt hyH hx
        have hb : cid W (y+1) x < W * H := cid_lt hy1H hx
        obtain ⟨heq, hwfe, hprese⟩ := ufEq_spec hwf ha hb
        by_cases he :
            (ufEq (W*H+1) st.uf (cid W y x) (cid W (y+1) x)).1 = true
        · rw [if_pos he]
          refine Or.inl ⟨_, rfl, ⟨hwg, hwfe, hup, ?_⟩⟩
          intro y3 x3 y4 x4 hy3 hx3 hy4 hx4
          rw [sameC_of_pres hprese (cid_lt hy3 hx3) (cid_lt hy4 hx4)]
          exact hsc y3 x3 y4 x4 hy3 hx3 hy4 hx4
        · rw [if_neg he]
          have hinv_e : GenInv2 W H st.adj
              (ufEq (W*H+1) st.uf (cid W y x) (cid W (y+1) x)).2 := by
            refine ⟨hwg, hwfe, hup, ?_⟩
            intro y3 x3 y4 x4 hy3 hx3 hy4 hx4
            rw [sameC_of_pres hprese (cid_lt hy3 hx3) (cid_lt hy4 hx4)]
            exact hsc y3 x3 y4 x4 hy3 hx3 hy4 hx4
          have hnee : ¬ sameC
              (ufEq (W*H+1) st.uf (cid W y x) (cid W (y+1) x)).2 (W*H)
              (cid W y x) (cid W (y+1) x) := by
            rw [sameC_of_pres hprese ha hb]
            intro hcon
            exact he (heq.mpr hcon)
          have hwg2 : WfGrid (setSouth st.adj y x) W H := wfGrid_set hwg hyH
          have hcast : ((y + 1 : Nat) : Int) = (y : Int) + 1 := by push_cast; ring
          have hbr : ∀ u v, openAdj (setSouth st.adj y x) W H u v ↔
              addE (openAdj st.adj W H) ((y : Int), (x : Int))
                (((y + 1 : Nat) : Int), (x : Int)) u v := by
            intro u v
            rw [hcast]
            exact openAdj_setSouth hwg hy1H hx u v
          have hGI := gen_update_inv hinv_e hyH hx hy1H hx hwg2 hbr hnee
          obtain ⟨heq2, hwf2, hpres2⟩ :=
            ufEq_spec hGI.2.1 (cid_lt hsy hsx) (cid_lt hfy hfx)
          by_cases he2 : (ufEq (W*H+1)
              (ufMerge (W*H+1)
                (ufEq (W*H+1) st.uf (cid W y x) (cid W (y+1) x)).2
                (cid W y x) (cid W (y+1) x))
              (cid W sy sx) (cid W fy fx)).1 = true
          · rw [if_pos he2]
            refine Or.inr ⟨_, rfl, hGI.1, hGI.2.2.1, ?_⟩
            exact (hGI.2.2.2 sy sx fy fx hsy hsx hfy hfx).mp (heq2.mp he2)
          · rw [if_neg he2]
            refine Or.inl ⟨_, rfl, ⟨hGI.1, hwf2, hGI.2.2.1, ?_⟩⟩
            intro y3 x3 y4 x4 hy3 hx3 hy4 hx4
            rw [sameC_of_pres hpres2 (cid_lt hy3 hx3) (cid_lt hy4 hx4)]
            exact hGI.2.2.2 y3 x3 y4 x4 hy3 hx3 hy4 hx4

theorem genLoop_inv {s : Nat → Nat} {W H sx sy fx fy : Nat} {mask : Mask}
    (hW : 2 ≤ W) (hH : 2 ≤ H) (hsx : sx < W) (hsy : sy < H)
    (hfx : fx < W) (hfy : fy < H) :
    ∀ (fuel n : Nat) (st : GenSt), GenInv W H st →
      (∀ st2, genLoop s W H sx sy fx fy mask fuel n st = Sum.inl st2 →
        GenInv W H st2) ∧
      (∀ adj, genLoop s W H sx sy fx fy mask fuel n st = Sum.inr adj →
        WfGrid adj W H ∧ UP (openAdj adj W H) ∧
        conn (openAdj adj W H) ((sy : Int), (sx : Int))
          ((fy : Int), (fx : Int))) := by
  intro fuel
  induction fuel with
  | zero =>
    intro n st hinv
    constructor
    · intro st2 h
      simp only [genLoop] at h
      injection h with h
      rw [← h]
      exact hinv
    · intro adj h
      simp only [genLoop] at h
      exact Sum.noConfusion h
  | succ fuel ih =>
    intro n st hinv
    rcases genStep_cases s mask hW hH hsx hsy hfx hfy n st hinv with
      ⟨st2, hstep, hinv2⟩ | ⟨adj, hstep, hres⟩
    · have hred : genLoop s W H sx sy fx fy mask (fuel+1) n st =
          genLoop s W H sx sy fx fy mask fuel (n+1) st2 := by
        simp only [genLoop, hstep]
      rw [hred]
      exact ih (n+1) st2 hinv2
    · have hred : genLoop s W H sx sy fx fy mask (fuel+1) n st =
          Sum.inr adj := by
        simp only [genLoop, hstep]
      rw [hred]
      constructor
      · intro st2 h
        exact Sum.noConfusion h
      · intro adj2 h
        injection h with h
        rw [← h]
        exact hres

/-! ## Solver lemmas -/

theorem adjGet?_eq {adj : Connections} {W H : Nat} (hw : WfGrid adj W H)
    {y x : Int} (h1 : 0 ≤ y) (h2 : y < (H : Int)) (h3 : 0 ≤ x)
    (h4 : x < (W : Int)) : adjGet? adj y x = some (atI adj y x) := by
  rw [adjGet?, if_pos ⟨h1, h3⟩, atI_to_at2 adj h1 h3]
  have hyl : y.toNat < adj.length := by rw [hw.1]; omega
  have hxl : x.toNat < (adj.getD y.toNat []).length := by
    rw [rowLen hw (by omega)]
    omega
  rw [if_pos ⟨hxl, hyl⟩]
  rw [at2]

theorem dirTry_eq {adj : Connections} {cond : Prop} [Decidable cond]
    {ry rx : Int} {flag : Adjacency → Bool} {sp : MPath} {c : Pos}
    {fr : List MPath}
    (hread : cond → adjGet? adj ry rx = some (atI adj ry rx)) :
    dirTry adj cond ry rx flag sp c fr =
      some (if cond ∧ flag (atI adj ry rx) = true ∧ c ∉ sp
        then (sp ++ [c]) :: fr else fr) := by
  rw [dirTry]
  by_cases hc : cond
  · rw [if_pos hc, hread hc]
    by_cases hf : flag (atI adj ry rx) = true
    · rw [fringePush]
      by_cases hm : c ∈ sp
      · simp [hf, hm, hc]
      · simp [hf, hm, hc]
    · simp [hf, hc]
  · simp [hc]

theorem openAdj_dirs {adj : Connections} {W H : Nat} {p1 c : Pos}
    (hp1 : inB W H p1) :
    openAdj adj W H p1 c ↔
      (0 ≤ p1.1 - 1 ∧ (atI adj (p1.1 - 1) p1.2).to_south = true ∧
        c = (p1.1 - 1, p1.2)) ∨
      (p1.2 + 1 < (W : Int) ∧ (atI adj p1.1 p1.2).to_east = true ∧
        c = (p1.1, p1.2 + 1)) ∨
      (p1.1 + 1 < (H : Int) ∧ (atI adj p1.1 p1.2).to_south = true ∧
        c = (p1.1 + 1, p1.2)) ∨
      (0 ≤ p1.2 - 1 ∧ (atI adj p1.1 (p1.2 - 1)).to_east = true ∧
        c = (p1.1, p1.2 - 1)) := by
  obtain ⟨hb1, hb2, hb3, hb4⟩ := hp1
  constructor
  · intro h
    rcases h with ⟨hv, h1, h2, h3, h4, hf⟩ | ⟨hv, h1, h2, h3, h4, hf⟩ |
      ⟨hv, h1, h2, h3, h4, hf⟩ | ⟨hv, h1, h2, h3, h4, hf⟩
    · exact Or.inr (Or.inl ⟨h4, hf, hv⟩)
    · rw [Prod.ext_iff] at hv
      have hc1 : c.1 = p1.1 := by omega
      have hc2 : c.2 = p1.2 - 1 := by omega
      refine Or.inr (Or.inr (Or.inr ⟨by omega, ?_, ?_⟩))
      · rw [← hc1, ← hc2]
        exact hf
      · rw [Prod.ext_iff]
        exact ⟨hc1, hc2⟩
    · exact Or.inr (Or.inr (Or.inl ⟨h2, hf, hv⟩))
    · rw [Prod.ext_iff] at hv
      have hc1 : c.1 = p1.1 - 1 := by omega
      have hc2 : c.2 = p1.2 := by omega
      refine Or.inl ⟨by omega, ?_, ?_⟩
      · rw [← hc1, ← hc2]
        exact hf
      · rw [Prod.ext_iff]
        exact ⟨hc1, hc2⟩
  · intro h
    rcases h with ⟨hg, hf, hv⟩ | ⟨hg, hf, hv⟩ | ⟨hg, hf, hv⟩ | ⟨hg, hf, hv⟩
    · rw [Prod.ext_iff] at hv
      refine Or.inr (Or.inr (Or.inr ⟨?_, ?_, ?_, ?_, ?_, ?_⟩))
      · rw [Prod.ext_iff]
        exact ⟨by omega, by omega⟩
      · omega
      · omega
      · omega
      · omega
      · have hcc : c.1 = p1.1 - 1 ∧ c.2 = p1.2 := by omega
        rw [hcc.1, hcc.2]
        exact hf
    · refine Or.inl ⟨?_, hb1, hb2, hb3, hg, ?_⟩
      · rw [hv]
      · exact hf
    · refine Or.inr (Or.inr (Or.inl ⟨?_, hb1, hg, hb3, hb4, ?_⟩))
      · rw [hv]
      · exact hf
    · rw [Prod.ext_iff] at hv
      refine Or.inr (Or.inl ⟨?_, ?_, ?_, ?_, ?_, ?_⟩)
      · rw [Prod.ext_iff]
        exact ⟨by omega, by omega⟩
      · omega
      · omega
      · omega
      · omega
      · have hcc : c.1 = p1.1 ∧ c.2 = p1.2 - 1 := by omega
        rw [hcc.1, hcc.2]
        exact hf

theorem mem_pushIf {C : Prop} [Decidable C] {sp : MPath} {c : Pos}
    {f : List MPath} (q : MPath) :
    (q ∈ (if C then (sp ++ [c]) :: f else f)) ↔
      ((C ∧ q = sp ++ [c]) ∨ q ∈ f) := by
  split
  · rename_i h
    rw [List.mem_cons]
    tauto
  · rename_i h
    tauto

theorem measure_pushIf {W H : Nat} {C : Prop} [Decidable C] {sp : MPath}
    {c : Pos} {f : List MPath} :
    fringeMeasure W H (if C then (sp ++ [c]) :: f else f) ≤
      fringeMeasure W H f + 5 ^ (W * H + 1 - (sp.length + 1)) := by
  split
  · rw [fringeMeasure, List.map_cons, List.sum_cons,
      show (sp ++ [c]).length = sp.length + 1 by simp, fringeMeasure]
    omega
  · exact Nat.le_add_right _ _

theorem exploreStep_spec {adj : Connections} {W H : Nat} (sp : MPath)
    {p1 : Pos} (fr : List MPath) (hw : WfGrid adj W H) (hp1 : inB W H p1) :
    ∃ fr2, exploreStep adj W H sp p1 fr = some fr2 ∧
      (∀ q, q ∈ fr2 ↔ (q ∈ fr ∨
        ∃ c, q = sp ++ [c] ∧ c ∉ sp ∧ openAdj adj W H p1 c)) ∧
      fringeMeasure W H fr2 ≤ fringeMeasure W H fr +
        4 * 5 ^ (W * H + 1 - (sp.length + 1)) := by
  obtain ⟨hb1, hb2, hb3, hb4⟩ := hp1
  have hN : (0 ≤ p1.1 - 1) →
      adjGet? adj (p1.1 - 1) p1.2 = some (atI adj (p1.1 - 1) p1.2) :=
    fun h => adjGet?_eq hw h (by omega) hb3 hb4
  have hE : (p1.2 + 1 < (W : Int)) →
      adjGet? adj p1.1 p1.2 = some (atI adj p1.1 p1.2) :=
    fun _ => adjGet?_eq hw hb1 hb2 hb3 hb4
  have hS : (p1.1 + 1 < (H : Int)) →
      adjGet? adj p1.1 p1.2 = some (atI adj p1.1 p1.2) :=
    fun _ => adjGet?_eq hw hb1 hb2 hb3 hb4
  have hWd : (0 ≤ p1.2 - 1) →
      adjGet? adj p1.1 (p1.2 - 1) = some (atI adj p1.1 (p1.2 - 1)) :=
    fun h => adjGet?_eq hw hb1 hb2 h (by omega)
  rw [exploreStep, dirTry_eq hN, Option.some_bind, dirTry_eq hE,
    Option.some_bind, dirTry_eq hS, Option.some_bind, dirTry_eq hWd]
  refine ⟨_, rfl, ?_, ?_⟩
  · intro q
    rw [mem_pushIf, mem_pushIf, mem_pushIf, mem_pushIf]
    constructor
    · rintro (⟨⟨hg, hf, hm⟩, hq⟩ | ⟨⟨hg, hf, hm⟩, hq⟩ |
        ⟨⟨hg, hf, hm⟩, hq⟩ | ⟨⟨hg, hf, hm⟩, hq⟩ | hq)
      · exact Or.inr ⟨_, hq, hm, (openAdj_dirs ⟨hb1, hb2, hb3, hb4⟩).mpr
          (Or.inr (Or.inr (Or.inr ⟨hg, hf, rfl⟩)))⟩
      · exact Or.inr ⟨_, hq, hm, (openAdj_dirs ⟨hb1, hb2, hb3, hb4⟩).mpr
          (Or.inr (Or.inr (Or.inl ⟨hg, hf, rfl⟩)))⟩
      · exact Or.inr ⟨_, hq, hm, (openAdj_dirs ⟨hb1, hb2, hb3, hb4⟩).mpr
          (Or.inr (Or.inl ⟨hg, hf, rfl⟩))⟩
      · exact Or.inr ⟨_, hq, hm, (openAdj_dirs ⟨hb1, hb2, hb3, hb4⟩).mpr
          (Or.inl ⟨hg, hf, rfl⟩)⟩
      · exact Or.inl hq
    · rintro (hq | ⟨c, hq, hm, hadj⟩)
      · exact Or.inr (Or.inr (Or.inr (Or.inr hq)))
      · rcases (openAdj_dirs ⟨hb1, hb2, hb3, hb4⟩).mp hadj with
          ⟨hg, hf, hc⟩ | ⟨hg, hf, hc⟩ | ⟨hg, hf, hc⟩ | ⟨hg, hf, hc⟩
        · subst hc
          exact Or.inr (Or.inr (Or.inr (Or.inl ⟨⟨hg, hf, hm⟩, hq⟩)))
        · subst hc
          exact Or.inr (Or.inr (Or.inl ⟨⟨hg, hf, hm⟩, hq⟩))
        · subst hc
          exact Or.inr (Or.inl ⟨⟨hg, hf, hm⟩, hq⟩)
        · subst hc
          exact Or.inl ⟨⟨hg, hf, hm⟩, hq⟩
  · refine le_trans measure_pushIf ?_
    refine le_trans (Nat.add_le_add_right measure_pushIf _) ?_
    refine le_trans (Nat.add_le_add_right
      (Nat.add_le_add_right measure_pushIf _) _) ?_
    refine le_trans (Nat.add_le_add_right (Nat.add_le_add_right
      (Nat.add_le_add_right measure_pushIf _) _) _) ?_
    omega

theorem getLast?_of_ne_nil {l : MPath} (h : l ≠ []) : ∃ p, l.getLast? = some p :=
  ⟨l.getLast h, List.getLast?_eq_getLast l h⟩

theorem fringeInv_step {adj : Connections} {W H : Nat} {s0 p1 : Pos}
    {sp : MPath} {rest fr2 : List MPath}
    (hinv : FringeInv adj W H s0 (sp :: rest))
    (hp1 : sp.getLast? = some p1)
    (hmem : ∀ q, q ∈ fr2 ↔ (q ∈ rest ∨
      ∃ c, q = sp ++ [c] ∧ c ∉ sp ∧ openAdj adj W H p1 c)) :
    FringeInv adj W H s0 fr2 := by
  obtain ⟨hne, hh, hnd, hch, hib⟩ := hinv sp (List.mem_cons_self sp rest)
  intro q hq
  rcases (hmem q).mp hq with hq2 | ⟨c, hqe, hcm, hadj⟩
  · exact hinv q (List.mem_cons_of_mem _ hq2)
  · subst hqe
    refine ⟨by simp, ?_, ?_, ?_, ?_⟩
    · rw [List.head?_append_of_ne_nil sp hne]
      exact hh
    · refine List.nodup_append.mpr ⟨hnd, List.nodup_singleton c, ?_⟩
      intro a ha hac
      simp at hac
      subst hac
      exact hcm ha
    · refine List.chain'_append.mpr ⟨hch, List.chain'_singleton c, ?_⟩
      intro a ha b hb
      rw [hp1] at ha
      simp at ha hb
      subst ha
      subst hb
      exact hadj
    · intro d hd
      rcases List.mem_append.mp hd with hd | hd
      · exact hib d hd
      · simp at hd
        subst hd
        exact (openAdj_inB hadj).2

theorem path_len_le {W H : Nat} {q : MPath} (hnd : q.Nodup)
    (hib : ∀ c ∈ q, inB W H c) : q.length ≤ W * H := by
  have hmapnd : (q.map (fun c => (c.1.toNat, c.2.toNat))).Nodup := by
    refine List.Nodup.map_on ?_ hnd
    intro a ha b hb hab
    obtain ⟨ha1, ha2, ha3, ha4⟩ := hib a ha
    obtain ⟨hb1, hb2, hb3, hb4⟩ := hib b hb
    rw [Prod.ext_iff] at hab ⊢
    constructor
    · have := hab.1
      omega
    · have := hab.2
      omega
  have hsub : (q.map (fun c => (c.1.toNat, c.2.toNat))).toFinset ⊆
      Finset.range H ×ˢ Finset.range W := by
    intro a ha
    rw [List.mem_toFinset] at ha
    obtain ⟨c, hc, hce⟩ := List.mem_map.mp ha
    obtain ⟨h1, h2, h3, h4⟩ := hib c hc
    rw [← hce, Finset.mem_product, Finset.mem_range, Finset.mem_range]
    constructor <;> simp <;> omega
  have hcard := Finset.card_le_card hsub
  rw [List.toFinset_card_of_nodup hmapnd, Finset.card_product,
    Finset.card_range, Finset.card_range, List.length_map] at hcard
  have hcomm : H * W = W * H := Nat.mul_comm H W
  omega

theorem measure_pop {W H : Nat} {sp : MPath} {rest fr2 : List MPath}
    (hL1 : 1 ≤ sp.length) (hL2 : sp.length ≤ W * H)
    (hle : fringeMeasure W H fr2 ≤ fringeMeasure W H rest +
      4 * 5 ^ (W * H + 1 - (sp.length + 1))) :
    fringeMeasure W H fr2 < fringeMeasure W H (sp :: rest) := by
  have hexp : fringeMeasure W H (sp :: rest) =
      5 ^ (W * H + 1 - sp.length) + fringeMeasure W H rest := by
    rw [fringeMeasure, List.map_cons, List.sum_cons, fringeMeasure]
  have he1 : W * H + 1 - sp.length = (W * H - sp.length) + 1 := by omega
  have he2 : W * H + 1 - (sp.length + 1) = W * H - sp.length := by omega
  rw [he1] at hexp
  rw [he2] at hle
  have hpow : 4 * 5 ^ (W * H - sp.length) < 5 ^ ((W * H - sp.length) + 1) := by
    rw [pow_succ]
    have hp : 0 < 5 ^ (W * H - sp.length) := Nat.pos_pow_of_pos _ (by omega)
    omega
  rw [hexp]
  omega

theorem solveLoop_no_oob {adj : Connections} {W H : Nat} {fx fy : Int}
    {po : MPath} {s0 : Pos} (hw : WfGrid adj W H) :
    ∀ (fuel : Nat) (fr : List MPath), FringeInv adj W H s0 fr →
      solveLoop adj W H fx fy po fuel fr ≠ SolveOutcome.oob := by
  intro fuel
  induction fuel with
  | zero =>
    intro fr _ h
    simp [solveLoop] at h
  | succ fuel ih =>
    intro fr hinv h
    cases fr with
    | nil => simp [solveLoop] at h
    | cons sp rest =>
      obtain ⟨hne, hh, hnd, hch, hib⟩ := hinv sp (List.mem_cons_self sp rest)
      obtain ⟨p1, hp1⟩ := getLast?_of_ne_nil hne
      rw [solveLoop] at h
      simp only [hp1] at h
      by_cases hfin : p1.1 = fy ∧ p1.2 = fx
      · rw [if_pos hfin] at h
        exact SolveOutcome.noConfusion h
      · rw [if_neg hfin] at h
        have hp1B : inB W H p1 :=
          hib p1 (List.mem_of_mem_getLast? (by rw [hp1]; rfl))
        obtain ⟨fr2, hex, hmem, _⟩ :=
          exploreStep_spec sp rest hw hp1B
        simp only [hex] at h
        exact ih fr2 (fringeInv_step hinv hp1 hmem) h

theorem solveLoop_no_fuelOut {adj : Connections} {W H : Nat} {fx fy : Int}
    {po : MPath} {s0 : Pos} (hw : WfGrid adj W H) :
    ∀ (fuel : Nat) (fr : List MPath), FringeInv adj W H s0 fr →
      fringeMeasure W H fr < fuel →
      solveLoop adj W H fx fy po fuel fr ≠ SolveOutcome.fuelOut := by
  intro fuel
  induction fuel with
  | zero =>
    intro fr _ hm
    omega
  | succ fuel ih =>
    intro fr hinv hm h
    cases fr with
    | nil => simp [solveLoop] at h
    | cons sp rest =>
      obtain ⟨hne, hh, hnd, hch, hib⟩ := hinv sp (List.mem_cons_self sp rest)
      obtain ⟨p1, hp1⟩ := getLast?_of_ne_nil hne
      rw [solveLoop] at h
      simp only [hp1] at h
      by_cases hfin : p1.1 = fy ∧ p1.2 = fx
      · rw [if_pos hfin] at h
        exact SolveOutcome.noConfusion h
      · rw [if_neg hfin] at h
        have hp1B : inB W H p1 :=
          hib p1 (List.mem_of_mem_getLast? (by rw [hp1]; rfl))
        obtain ⟨fr2, hex, hmem, hmeas⟩ :=
          exploreStep_spec sp rest hw hp1B
        simp only [hex] at h
        have hL1 : 1 ≤ sp.length := by
          cases sp with
          | nil => exact absurd rfl hne
          | cons a t => simp
        have hdec : fringeMeasure W H fr2 < fringeMeasure W H (sp :: rest) :=
          measure_pop hL1 (path_len_le hnd hib) hmeas
        exact ih fr2 (fringeInv_step hinv hp1 hmem) (by omega) h

theorem solveLoop_false_po {adj : Connections} {W H : Nat} {fx fy : Int}
    {po : MPath} :
    ∀ (fuel : Nat) (fr : List MPath) (q : MPath),
      solveLoop adj W H fx fy po fuel fr = SolveOutcome.ok false q →
      q = po := by
  intro fuel
  induction fuel with
  | zero =>
    intro fr q h
    simp [solveLoop] at h
  | succ fuel ih =>
    intro fr q h
    cases fr with
    | nil =>
      simp only [solveLoop] at h
      injection h with h1 h2
      exact h2.symm
    | cons sp rest =>
      simp only [solveLoop] at h
      cases hlast : sp.getLast? with
      | none =>
        simp only [hlast] at h
        exact SolveOutcome.noConfusion h
      | some p1 =>
        simp only [hlast] at h
        by_cases hfin : p1.1 = fy ∧ p1.2 = fx
        · rw [if_pos hfin] at h
          injection h with h1 h2
          exact absurd h1.symm (by simp)
        · rw [if_neg hfin] at h
          cases hex : exploreStep adj W H sp p1 rest with
          | none =>
            simp only [hex] at h
            exact SolveOutcome.noConfusion h
          | some fr2 =>
            simp only [hex] at h
            exact ih fr2 q h

theorem solveLoop_sound {adj : Connections} {W H : Nat} {fx fy : Int}
    {po : MPath} {s0 : Pos} (hw : WfGrid adj W H) :
    ∀ (fuel : Nat) (fr : List MPath), FringeInv adj W H s0 fr →
      ∀ p, solveLoop adj W H fx fy po fuel fr = SolveOutcome.ok true p →
      PathB (openAdj adj W H) p s0 ((fy, fx) : Pos) := by
  intro fuel
  induction fuel with
  | zero =>
    intro fr _ p h
    simp [solveLoop] at h
  | succ fuel ih =>
    intro fr hinv p h
    cases fr with
    | nil =>
      simp only [solveLoop] at h
      injection h with h1 h2
      exact absurd h1 (by simp)
    | cons sp rest =>
      obtain ⟨hne, hh, hnd, hch, hib⟩ := hinv sp (List.mem_cons_self sp rest)
      obtain ⟨p1, hp1⟩ := getLast?_of_ne_nil hne
      rw [solveLoop] at h
      simp only [hp1] at h
      by_cases hfin : p1.1 = fy ∧ p1.2 = fx
      · rw [if_pos hfin] at h
        injection h with h1 h2
        rw [← h2]
        refine ⟨hch, hnd, hh, ?_⟩
        rw [hp1]
        have : p1 = ((fy, fx) : Pos) := Prod.ext_iff.mpr ⟨hfin.1, hfin.2⟩
        rw [this]
      · rw [if_neg hfin] at h
        have hp1B : inB W H p1 :=
          hib p1 (List.mem_of_mem_getLast? (by rw [hp1]; rfl))
        obtain ⟨fr2, hex, hmem, _⟩ :=
          exploreStep_spec sp rest hw hp1B
        simp only [hex] at h
        exact ih fr2 (fringeInv_step hinv hp1 hmem) p h

theorem solveLoop_complete {adj : Connections} {W H : Nat} {fx fy : Int}
    {po : MPath} {s0 : Pos} (hw : WfGrid adj W H) :
    ∀ (fuel : Nat) (fr : List MPath), FringeInv adj W H s0 fr →
      fringeMeasure W H fr < fuel →
      (∃ q ∈ fr, Compl (openAdj adj W H) ((fy, fx) : Pos) q) →
      ∃ p, solveLoop adj W H fx fy po fuel fr = SolveOutcome.ok true p := by
  intro fuel
  induction fuel with
  | zero =>
    intro fr _ hm _
    omega
  | succ fuel ih =>
    intro fr hinv hm hex
    cases fr with
    | nil =>
      obtain ⟨q, hq, _⟩ := hex
      simp at hq
    | cons sp rest =>
      obtain ⟨hne, hh, hnd, hch, hib⟩ := hinv sp (List.mem_cons_self sp rest)
      obtain ⟨p1, hp1⟩ := getLast?_of_ne_nil hne
      rw [solveLoop]
      simp only [hp1]
      by_cases hfin : p1.1 = fy ∧ p1.2 = fx
      · rw [if_pos hfin]
        exact ⟨sp, rfl⟩
      · rw [if_neg hfin]
        have hp1B : inB W H p1 :=
          hib p1 (List.mem_of_mem_getLast? (by rw [hp1]; rfl))
        obtain ⟨fr2, hexs, hmem, hmeas⟩ :=
          exploreStep_spec sp rest hw hp1B
        simp only [hexs]
        have hL1 : 1 ≤ sp.length := by
          cases sp with
          | nil => exact absurd rfl hne
          | cons a t0 => simp
        have hdec : fringeMeasure W H fr2 < fringeMeasure W H (sp :: rest) :=
          measure_pop hL1 (path_len_le hnd hib) hmeas
        apply ih fr2 (fringeInv_step hinv hp1 hmem) (by omega)
        obtain ⟨q, hq, t, hcht, hndt, hlt⟩ := hex
        rcases List.mem_cons.mp hq with hq2 | hq2
        · subst hq2
          cases t with
          | nil =>
            exfalso
            rw [List.append_nil, hp1] at hlt
            injection hlt with hlt
            exact hfin (by rw [hlt]; exact ⟨rfl, rfl⟩)
          | cons c t2 =>
            have hcsp : c ∉ q := by
              intro hcsp
              have hdisj := (List.nodup_append.mp hndt).2.2
              exact (List.disjoint_left.mp hdisj) hcsp (by simp)
            have hedge : openAdj adj W H p1 c := by
              have hlk := (List.chain'_append.mp hcht).2.2
              exact hlk p1 (by rw [hp1]; rfl) c rfl
            refine ⟨q ++ [c], (hmem _).mpr (Or.inr ⟨c, rfl, hcsp, hedge⟩),
              t2, ?_, ?_, ?_⟩
            · rw [List.append_assoc]
              exact hcht
            · rw [List.append_assoc]
              exact hndt
            · rw [List.append_assoc]
              exact hlt
        · exact ⟨q, (hmem q).mpr (Or.inl hq2), t, hcht, hndt, hlt⟩

theorem initial_fringeInv {adj : Connections} {W H : Nat} {s0 : Pos}
    (hs : inB W H s0) : FringeInv adj W H s0 [[s0]] := by
  intro q hq
  simp at hq
  subst hq
  refine ⟨by simp, rfl, by simp, List.chain'_singleton _, ?_⟩
  intro c hc
  simp at hc
  subst hc
  exact hs

theorem initial_measure {W H : Nat} {s0 : Pos} :
    fringeMeasure W H [[s0]] = 5 ^ (W * H) := by
  rw [fringeMeasure]
  simp

theorem SolveR_total {adj : Connections} {W H : Nat} {sx sy fx fy : Int}
    {po : MPath} (hw : WfGrid adj W H) (hs : inB W H ((sy, sx) : Pos)) :
    ∃ b p, SolveR adj W H sx sy fx fy po = SolveOutcome.ok b p := by
  cases h : SolveR adj W H sx sy fx fy po with
  | ok b p => exact ⟨b, p, rfl⟩
  | oob =>
    exact absurd h (solveLoop_no_oob hw _ _ (initial_fringeInv hs))
  | fuelOut =>
    refine absurd h (solveLoop_no_fuelOut hw _ _ (initial_fringeInv hs) ?_)
    rw [initial_measure]
    omega

theorem SolveR_sound {adj : Connections} {W H : Nat} {sx sy fx fy : Int}
    {po p : MPath} (hw : WfGrid adj W H) (hs : inB W H ((sy, sx) : Pos))
    (h : SolveR adj W H sx sy fx fy po = SolveOutcome.ok true p) :
    PathB (openAdj adj W H) p ((sy, sx) : Pos) ((fy, fx) : Pos) :=
  solveLoop_sound hw _ _ (initial_fringeInv hs) p h

theorem SolveR_complete {adj : Connections} {W H : Nat} {sx sy fx fy : Int}
    {po : MPath} (hw : WfGrid adj W H) (hs : inB W H ((sy, sx) : Pos))
    (hc : conn (openAdj adj W H) ((sy, sx) : Pos) ((fy, fx) : Pos)) :
    ∃ p, SolveR adj W H sx sy fx fy po = SolveOutcome.ok true p := by
  obtain ⟨r, hr⟩ := hc
  refine solveLoop_complete hw _ _ (initial_fringeInv hs)
    (by rw [initial_measure]; omega) ?_
  cases r with
  | nil => simp [PathB] at hr
  | cons z zs =>
    have hz : z = ((sy, sx) : Pos) := by simpa using hr.2.2.1
    subst hz
    exact ⟨[((sy, sx) : Pos)], by simp, zs, by simpa using hr.1,
      by simpa using hr.2.1, by simpa using hr.2.2.2⟩

theorem not_conn_of_no_last {α : Type} {A : α → α → Prop} {u v : α}
    (hne : u ≠ v) (h : ∀ w, ¬ A w v) : ¬ conn A u v := by
  rintro ⟨p, hp⟩
  obtain ⟨w, hw⟩ := pathB_last_step hp hne
  exact h w hw

theorem walk_conn {α : Type} {A : α → α → Prop} {p : List α} {u v : α}
    (h : WalkB A p u v) : conn A u v := by
  obtain ⟨q, hq, _⟩ := walk_simplify p.length p le_rfl h.1 u v h.2.1 h.2.2
  exact ⟨q, hq⟩

theorem conn_walk {α : Type} {A : α → α → Prop} {u v : α}
    (h : conn A u v) : ∃ p, WalkB A p u v := by
  obtain ⟨p, hp⟩ := h
  exact ⟨p, hp.1, hp.2.2.1, hp.2.2.2⟩

theorem GenerateF_inr {fuel : Nat} {s : Nat → Nat} {W H sx sy fx fy : Nat}
    {mask : Mask} {adj : Connections} :
    GenerateF fuel s W H sx sy fx fy mask = some adj ↔
      genLoop s W H sx sy fx fy mask fuel 0 (genState0 W H) = Sum.inr adj := by
  rw [GenerateF]
  cases h : genLoop s W H sx sy fx fy mask fuel 0 (genState0 W H) with
  | inl st => simp
  | inr a => simp

theorem generate_props {fuel : Nat} {s : Nat → Nat} {W H sx sy fx fy : Nat}
    {mask : Mask} {adj : Connections}
    (hW : 2 ≤ W) (hH : 2 ≤ H) (hsx : sx < W) (hsy : sy < H)
    (hfx : fx < W) (hfy : fy < H)
    (h : genLoop s W H sx sy fx fy mask fuel 0 (genState0 W H) = Sum.inr adj) :
    WfGrid adj W H ∧ UP (openAdj adj W H) ∧
    conn (openAdj adj W H) ((sy : Int), (sx : Int)) ((fy : Int), (fx : Int)) :=
  (genLoop_inv hW hH hsx hsy hfx hfy fuel 0 (genState0 W H)
    (genInv2_init W H)).2 adj h

theorem no_open_into_B : ∀ w, ¬ openAdj adjB 2 2 w ((1 : Int), (0 : Int)) := by
  intro w h
  rcases h with ⟨hv, h1, h2, h3, h4, hf⟩ | ⟨hv, h1, h2, h3, h4, hf⟩ |
    ⟨hv, h1, h2, h3, h4, hf⟩ | ⟨hv, h1, h2, h3, h4, hf⟩
  · rw [Prod.ext_iff] at hv
    omega
  · exact absurd hf (by decide)
  · rw [Prod.ext_iff] at hv
    have hw1 : w.1 = 0 := by omega
    have hw2 : w.2 = 0 := by omega
    rw [hw1, hw2] at hf
    exact absurd hf (by decide)
  · exact absurd h2 (by decide)

theorem mask_separates_C :
    ∀ w, ¬ unmaskedAdj 2 2 maskC w ((1 : Int), (0 : Int)) := by
  rintro w ⟨⟨hbw, _, hstep⟩, hwm, _⟩
  obtain ⟨hb1, hb2, hb3, hb4⟩ := hbw
  rcases hstep with ⟨he1, he2 | he2⟩ | ⟨he1, he2 | he2⟩
  · omega
  · have hw : w = ((1 : Int), (1 : Int)) :=
      Prod.ext_iff.mpr ⟨by omega, by omega⟩
    rw [hw] at hwm
    exact hwm (by decide)
  · have hw : w = ((0 : Int), (0 : Int)) :=
      Prod.ext_iff.mpr ⟨by omega, by omega⟩
    rw [hw] at hwm
    exact hwm (by decide)
  · omega

/-! ## The claims -/

/-- Claim C1 (code bug): the claim states that no edge incident to a
masked cell is ever open in the returned grid — in particular the west
neighbor's `to_east` flag of a masked cell stays `false`.  The code only
tests the mask on the west/north endpoint of a candidate wall
(`mask.count(Pos(y,x))` at lines 84 and 103), so the wall between the
unmasked `(0,0)` and the masked `(0,1)` is removed: on the 2×2 grid with
mask `{(0,1)}` and the stream `strA`, `Generate` returns `adjA` whose
`adj[0][0].to_east` is `true`, an open edge into the masked cell.  This
contradicts the source's own comment ("a subset of cells whose walls
will not be removed"). -/
theorem claim_C1_mask_violated :
    ((0 : Int), (1 : Int)) ∈ ([((0 : Int), (1 : Int))] : Mask) ∧
    GenerateF 10 strA 2 2 0 0 1 1 [((0 : Int), (1 : Int))] = some adjA ∧
    (at2 adjA 0 0).to_east = true := by
  refine ⟨by decide, by decide, by decide⟩

/-- Claim C2: every wall removal joins two previously distinct
union-find components, so at every point of generation (any state the
loop can reach, `Sum.inl`, as well as the returned grid, `Sum.inr`) the
open-wall graph is a forest — stated as: between any two cells there is
at most one simple open-wall path (`UP`) — and in the returned grid there
is exactly one simple open-wall path from start to finish. -/
theorem claim_C2_forest (s : Nat → Nat) (W H sx sy fx fy : Nat) (mask : Mask)
    (hW : 2 ≤ W) (hH : 2 ≤ H) (hsx : sx < W) (hsy : sy < H)
    (hfx : fx < W) (hfy : fy < H) (fuel : Nat) :
    (∀ st, genLoop s W H sx sy fx fy mask fuel 0 (genState0 W H) =
        Sum.inl st → UP (openAdj st.adj W H)) ∧
    (∀ adj, genLoop s W H sx sy fx fy mask fuel 0 (genState0 W H) =
        Sum.inr adj → UP (openAdj adj W H) ∧
      ∃! p, PathB (openAdj adj W H) p ((sy : Int), (sx : Int))
        ((fy : Int), (fx : Int))) := by
  constructor
  · intro st h
    exact ((genLoop_inv hW hH hsx hsy hfx hfy fuel 0 (genState0 W H)
      (genInv2_init W H)).1 st h).2.2.1
  · intro adj h
    obtain ⟨_, hup, hconn⟩ := generate_props hW hH hsx hsy hfx hfy h
    obtain ⟨p, hp⟩ := hconn
    exact ⟨hup, p, hp, fun q hq => hup _ _ q p hq hp⟩

theorem claim_C2_forest_witness :
    UP (openAdj adjA 2 2) ∧
    ∃! p, PathB (openAdj adjA 2 2) p ((0 : Int), (0 : Int))
      ((1 : Int), (1 : Int)) :=
  (claim_C2_forest strA 2 2 0 0 1 1 [] (by decide) (by decide) (by decide)
    (by decide) (by decide) (by decide) 10).2 adjA rfl

/-- Claim C3: `Generate` returns exactly when start and finish enter the
same component, so on return an open-wall path from start to finish
exists and `Solve` (here with an empty incoming `path_out`) succeeds on
the returned grid; and for some random streams the returned grid has
cells unreachable from start — concretely, `strB` on 2×2 yields `adjB`
in which cell `(1,0)` is unreachable from the start `(0,0)`. -/
theorem claim_C3_early_return :
    (∀ (s : Nat → Nat) (W H sx sy fx fy : Nat) (mask : Mask)
      (fuel : Nat) (adj : Connections),
      2 ≤ W → 2 ≤ H → sx < W → sy < H → fx < W → fy < H →
      GenerateF fuel s W H sx sy fx fy mask = some adj →
      conn (openAdj adj W H) ((sy : Int), (sx : Int))
        ((fy : Int), (fx : Int)) ∧
      ∃ p, SolveR adj W H sx sy fx fy [] = SolveOutcome.ok true p) ∧
    (GenerateF 10 strB 2 2 0 0 1 1 [] = some adjB ∧
      ¬ conn (openAdj adjB 2 2) ((0 : Int), (0 : Int))
        ((1 : Int), (0 : Int))) := by
  constructor
  · intro s W H sx sy fx fy mask fuel adj hW hH hsx hsy hfx hfy hgen
    obtain ⟨hwf, _, hconn⟩ :=
      generate_props hW hH hsx hsy hfx hfy (GenerateF_inr.mp hgen)
    refine ⟨hconn, ?_⟩
    exact SolveR_complete hwf ⟨by omega, by omega, by omega, by omega⟩ hconn
  · exact ⟨by decide, not_conn_of_no_last (by decide) no_open_into_B⟩

theorem claim_C3_early_return_witness :
    (conn (openAdj adjA 2 2) ((0 : Int), (0 : Int)) ((1 : Int), (1 : Int)) ∧
      ∃ p, SolveR adjA 2 2 0 0 1 1 [] = SolveOutcome.ok true p) :=
  claim_C3_early_return.1 strA 2 2 0 0 1 1 [] 10 adjA (by decide) (by decide)
    (by decide) (by decide) (by decide) (by decide) (by decide)

/-- Claim C4: on a well-formed grid of any contents with the start cell
in range, `Solve` never aborts (it always returns a boolean), it returns
`true` exactly when a walk of open-wall steps from start to finish
exists, and on the all-walls-up 2×2 grid with distinct start and finish
it returns `false`. -/
theorem claim_C4_solve_iff :
    (∀ (adj : Connections) (W H : Nat) (sx sy fx fy : Int) (po : MPath),
      WfGrid adj W H → inB W H ((sy, sx) : Pos) →
      ((∃ p, SolveR adj W H sx sy fx fy po = SolveOutcome.ok true p) ↔
        ∃ w, WalkB (openAdj adj W H) w ((sy, sx) : Pos) ((fy, fx) : Pos)) ∧
      (∃ b p, SolveR adj W H sx sy fx fy po = SolveOutcome.ok b p)) ∧
    SolveR (initAdj 2 2) 2 2 0 0 1 1 [] = SolveOutcome.ok false [] := by
  constructor
  · intro adj W H sx sy fx fy po hw hs
    refine ⟨⟨?_, ?_⟩, SolveR_total hw hs⟩
    · rintro ⟨p, hp⟩
      exact conn_walk ⟨p, SolveR_sound hw hs hp⟩
    · rintro ⟨w, hwk⟩
      exact SolveR_complete hw hs (walk_conn hwk)
  · decide

theorem claim_C4_solve_iff_witness :
    ∃ b p, SolveR (initAdj 2 2) 2 2 0 0 1 1 [] = SolveOutcome.ok b p :=
  (claim_C4_solve_iff.1 (initAdj 2 2) 2 2 0 0 1 1 []
    (by unfold WfGrid; decide) (by unfold inB; decide)).2

/-- Claim C5: whenever `Solve` returns `true`, the stored path begins at
start, ends at finish, has no duplicate coordinate, and each consecutive
pair is one cardinal step across an open wall (`openAdj`). -/
theorem claim_C5_path_valid (adj : Connections) (W H : Nat)
    (sx sy fx fy : Int) (po p : MPath) (hw : WfGrid adj W H)
    (hs : inB W H ((sy, sx) : Pos))
    (h : SolveR adj W H sx sy fx fy po = SolveOutcome.ok true p) :
    p.head? = some ((sy, sx) : Pos) ∧ p.getLast? = some ((fy, fx) : Pos) ∧
    p.Nodup ∧ p.Chain' (openAdj adj W H) := by
  obtain ⟨hch, hnd, hh, hl⟩ := SolveR_sound hw hs h
  exact ⟨hh, hl, hnd, hch⟩

theorem claim_C5_path_valid_witness :
    ([(0, 0), (1, 0), (1, 1)] : MPath).head? = some ((0 : Int), (0 : Int)) ∧
    ([(0, 0), (1, 0), (1, 1)] : MPath).getLast? = some ((1 : Int), (1 : Int)) ∧
    ([(0, 0), (1, 0), (1, 1)] : MPath).Nodup ∧
    ([(0, 0), (1, 0), (1, 1)] : MPath).Chain' (openAdj adjA 2 2) :=
  claim_C5_path_valid adjA 2 2 0 0 1 1 [] [(0, 0), (1, 0), (1, 1)]
    (by unfold WfGrid; decide) (by unfold inB; decide) (by decide)

/-- Claim C6 (counterexample): the claim says every random sequence on
the 2×2 grid with start `(0,0)`, finish `(1,1)` and empty mask removes
exactly 3 of the 4 internal walls.  The stream `strB` (East wall of
`(0,0)`, then South wall of `(0,1)`) connects start and finish after
removing only 2 walls, so `Generate` stops there: the returned grid
`adjB` has `countOpen adjB = 2`, not 3. -/
theorem claim_C6_counterexample :
    GenerateF 10 strB 2 2 0 0 1 1 [] = some adjB ∧
    countOpen adjB = 2 ∧ countOpen adjB ≠ 3 := by
  refine ⟨by decide, by decide, by decide⟩

/-- Claim C6 (amended): for a fixed random sequence — as in the spec's
original scenario — the 2×2 run with start `(0,0)`, finish `(1,1)` and
empty mask removes exactly 3 of the 4 internal walls, and `Solve` on the
resulting grid finds a path of exactly 3 cells. -/
theorem claim_C6_amended :
    GenerateF 10 strA 2 2 0 0 1 1 [] = some adjA ∧
    countOpen adjA = 3 ∧
    SolveR adjA 2 2 0 0 1 1 [] =
      SolveOutcome.ok true [(0, 0), (1, 0), (1, 1)] ∧
    ([(0, 0), (1, 0), (1, 1)] : MPath).length = 3 := by
  refine ⟨by decide, by decide, by decide, by decide⟩

/-- Claim C7 (code bug): the claim says that whenever the mask
disconnects start from finish (no path through unmasked cells joins
them), `Generate` never terminates.  Because the mask is only checked on
the west/north endpoint of a candidate wall, walls *into* a masked cell
can be removed and a masked cell can merge two components: on the 2×2
grid with mask `{(0,0), (1,1)}`, start `(0,1)` and finish `(1,0)` (the
two unmasked cells, not adjacent, so the mask separates them), the
stream `strC` opens the south wall of `(0,1)` and the east wall of
`(1,0)` — both into the masked `(1,1)` — which connects start to finish
and `Generate` terminates. -/
theorem claim_C7_terminates_despite_mask :
    (¬ conn (unmaskedAdj 2 2 maskC) ((0 : Int), (1 : Int))
      ((1 : Int), (0 : Int))) ∧
    GenerateF 10 strC 2 2 1 0 0 1 maskC = some adjC := by
  refine ⟨not_conn_of_no_last (by decide) mask_separates_C, by decide⟩

/-- Claim C8: with a well-formed `Height × Width` grid and an in-range
start cell, no adjacency read of the `Solve` loop is ever out of bounds:
for every fuel, the loop never returns the `oob` outcome (every
neighbor candidate is bounds-checked before the array is indexed). -/
theorem claim_C8_no_oob (adj : Connections) (W H : Nat)
    (sx sy fx fy : Int) (po : MPath) (fuel : Nat) (hw : WfGrid adj W H)
    (hs : inB W H ((sy, sx) : Pos)) :
    solveLoop adj W H fx fy po fuel [[(sy, sx)]] ≠ SolveOutcome.oob :=
  solveLoop_no_oob hw fuel _ (initial_fringeInv hs)

theorem claim_C8_no_oob_witness :
    solveLoop adjA 2 2 1 1 [] 100 [[((0 : Int), (0 : Int))]] ≠
      SolveOutcome.oob :=
  claim_C8_no_oob adjA 2 2 0 0 1 1 [] 100 (by unfold WfGrid; decide)
    (by unfold inB; decide)

/-- Claim C9: `Generate` is deterministic — it depends only on the
values drawn from the random stream: two runs whose streams agree
pointwise (same seed, hence same `rand()` sequence) and that get the
same width, height, start, finish and mask produce identical
`Connectivity` grids. -/
theorem claim_C9_deterministic (s1 s2 : Nat → Nat)
    (fuel W H sx sy fx fy : Nat) (mask : Mask) (h : ∀ n, s1 n = s2 n) :
    GenerateF fuel s1 W H sx sy fx fy mask =
      GenerateF fuel s2 W H sx sy fx fy mask := by
  rw [funext h]

theorem claim_C9_deterministic_witness :
    GenerateF 10 strA 2 2 0 0 1 1 [] =
      GenerateF 10 (fun n => strA (n + 0)) 2 2 0 0 1 1 [] :=
  claim_C9_deterministic strA (fun n => strA (n + 0)) 10 2 2 0 0 1 1 []
    (fun n => rfl)

/-- Claim C10: when `Solve` returns `false`, the output parameter
`path_out` is exactly what the caller passed in — the loop writes it
only on the success return. -/
theorem claim_C10_path_out_untouched (adj : Connections) (W H : Nat)
    (sx sy fx fy : Int) (po q : MPath)
    (h : SolveR adj W H sx sy fx fy po = SolveOutcome.ok false q) :
    q = po :=
  solveLoop_false_po _ _ q h

theorem claim_C10_path_out_untouched_witness :
    ([((9 : Int), (9 : Int))] : MPath) = [((9 : Int), (9 : Int))] :=
  claim_C10_path_out_untouched (initAdj 2 2) 2 2 0 0 1 1
    [((9 : Int), (9 : Int))] [((9 : Int), (9 : Int))] (by decide)
